import Mathlib

/-!
Verification of the line-classification core of the `filterless` pager.

The development shallowly embeds the three components of the pipeline:

* `LineBuffer`  (src/iter/line_buffer.rs): a caching, seekable, numbered
  view over a forward-only line source;
* `ContextBuffer` (src/iter/context_buffer.rs): the sliding-window
  classifier producing Gap / Context / Match / Unfiltered events;
* `WindowBuffer` (src/iter/window_buffer.rs): the paginating viewport.

Rust strings are modelled as `List Char`; `usize` as `Nat` (the code never
underflows a `usize` on the paths modelled: every subtraction is guarded
exactly as in the source, and the `as i64` comparisons are translated to the
equivalent `Nat` comparisons).  The forward-only line source is the list of
lines not yet pulled (`LineBuffer.lines`).  Stateful methods become
functions returning the result together with the updated state.
-/

namespace Filterless

/-- Content of one line; Rust `String`. -/
abbrev Str := List Char

/-- Rust `type NumberedLine = (usize, String)` (src/iter/iter.rs). -/
abbrev NumberedLine := Nat × Str

/-- Rust `enum IterDirection` (src/iter/line_buffer.rs). -/
inductive IterDirection
  | BACKWARD
  | FORWARD
deriving DecidableEq, Repr

/-- Rust `struct LineBuffer` (src/iter/line_buffer.rs).  `lines` is the
not-yet-consumed suffix of the underlying forward-only source. -/
structure LineBuffer where
  lines : List Str
  cached_lines : List NumberedLine
  last_iter_line : Nat
  iter_direction : IterDirection
deriving DecidableEq, Repr

/-- Numbers a list of lines consecutively starting at `n₀`; models the
`(next_line_num..).zip(...)` numbering in `LineBuffer::get`. -/
def numberFrom (n₀ : Nat) : List Str → List NumberedLine
  | [] => []
  | s :: rest => (n₀, s) :: numberFrom (n₀ + 1) rest

/-- Rust `LineBuffer::new`. -/
def LineBuffer.new (src : List Str) : LineBuffer :=
  ⟨src, [], 0, .FORWARD⟩

/-- Rust `LineBuffer::get`: returns the `line_num`th (1-based) line, pulling
further lines from the source into the cache if needed. -/
def LineBuffer.get (lb : LineBuffer) (line_num : Nat) :
    Option NumberedLine × LineBuffer :=
  if line_num < 1 then (none, lb)
  else
    let last_line_num := lb.cached_lines.length
    let lb' :=
      if line_num > last_line_num then
        { lb with
          cached_lines := lb.cached_lines ++
            numberFrom (last_line_num + 1)
              (lb.lines.take (line_num - last_line_num)),
          lines := lb.lines.drop (line_num - last_line_num) }
      else lb
    (lb'.cached_lines[line_num - 1]?, lb')

/-- Rust `impl Iterator for LineBuffer` — `next`. -/
def LineBuffer.next (lb : LineBuffer) : Option NumberedLine × LineBuffer :=
  let maybe_next_line : Option Nat :=
    match lb.iter_direction with
    | .FORWARD => some (lb.last_iter_line + 1)
    | .BACKWARD =>
        if lb.last_iter_line > 1 then some (lb.last_iter_line - 1) else none
  match maybe_next_line with
  | none => (none, lb)
  | some next_line =>
    match lb.get next_line with
    | (some line, lb') => (some line, { lb' with last_iter_line := next_line })
    | (none, lb') => (none, lb')

/-- Rust `LineBuffer::seek`. -/
def LineBuffer.seek (lb : LineBuffer) (maybe_line_num : Option Nat)
    (maybe_direction : Option IterDirection) : LineBuffer :=
  let lb1 :=
    match maybe_direction with
    | some d => { lb with iter_direction := d }
    | none => lb
  match maybe_line_num with
  | some line_num =>
    { lb1 with
      last_iter_line :=
        match lb1.iter_direction with
        | .BACKWARD => line_num + 1
        | .FORWARD => if line_num > 0 then line_num - 1 else 0 }
  | none => lb1

/-- Rust `struct FilterPredicate` (src/iter/iter.rs). -/
structure FilterPredicate where
  filter_string : Str
  context_lines : Nat
deriving DecidableEq, Repr

/-- Rust `str::contains` for a string pattern: substring containment. -/
def strContains (hay pat : Str) : Bool :=
  hay.tails.any (fun t => pat.isPrefixOf t)

/-- Rust `enum ContextLine` (src/iter/iter.rs). -/
inductive ContextLine
  | Match (nl : NumberedLine)
  | NoMatch (nl : NumberedLine)
deriving DecidableEq, Repr

/-- Rust `enum FilteredLine` (src/iter/iter.rs). -/
inductive FilteredLine
  | Gap
  | ContextLine (nl : NumberedLine)
  | MatchLine (nl : NumberedLine)
  | UnfilteredLine (nl : NumberedLine)
deriving DecidableEq, Repr

/-- Rust `enum Gap` (src/iter/iter.rs). -/
inductive Gap
  | Current
  | Previous
  | None
deriving DecidableEq, Repr

/-- Rust `ContextLine::from_numbered_line`. -/
def ContextLine.from_numbered_line (nl : NumberedLine) (fs : Str) :
    ContextLine :=
  if strContains nl.2 fs then .Match nl else .NoMatch nl

/-- Rust `ContextLine::to_filtered_line`. -/
def ContextLine.to_filtered_line : ContextLine → Option FilterPredicate →
    FilteredLine
  | .Match nl, _ => .MatchLine nl
  | .NoMatch nl, some _ => .ContextLine nl
  | .NoMatch nl, none => .UnfilteredLine nl

/-- Rust `struct ContextBuffer` (src/iter/context_buffer.rs). -/
structure ContextBuffer where
  filter_predicate : Option FilterPredicate
  buffer : List (Option ContextLine)
  iter : LineBuffer
  gap : Gap
deriving DecidableEq, Repr

/-- Pulls up to `n` lines from a `LineBuffer`, stopping at the first `none`
(the semantics of consuming a fused `take`/`chain` of the iterator). -/
def LineBuffer.nextN (lb : LineBuffer) : Nat → List NumberedLine × LineBuffer
  | 0 => ([], lb)
  | n + 1 =>
    match lb.next with
    | (some nl, lb') =>
      let (rest, lb'') := lb'.nextN n
      (nl :: rest, lb'')
    | (none, lb') => ([], lb')

/-- Rust `ContextBuffer::new`.  The original builds the deque lazily as
`repeat(None).take(r+1).chain(iter.map(classify)).chain(repeat(None))
.take(2r+1)`; since the first `r+1` items are `None`, exactly
`min r remaining` lines are pulled from `iter` (stopping at its first
`None`, as `Chain` fuses), which is `nextN r` followed by truncation. -/
def ContextBuffer.new (filter_predicate : Option FilterPredicate)
    (iter : LineBuffer) : ContextBuffer :=
  match filter_predicate with
  | some fp =>
    let capacity := fp.context_lines * 2 + 1
    let (pulled, iter') := iter.nextN fp.context_lines
    let buffer :=
      (List.replicate (fp.context_lines + 1) none ++
        pulled.map (fun nl =>
          some (ContextLine.from_numbered_line nl fp.filter_string)) ++
        List.replicate capacity none).take capacity
    ⟨filter_predicate, buffer, iter', .None⟩
  | none => ⟨none, [], iter, .None⟩

/-- The per-slot test used by `ContextBuffer::buffer_has_matches`. -/
def isMatchCL : Option ContextLine → Bool
  | some (.Match _) => true
  | _ => false

/-- Rust `ContextBuffer::buffer_has_matches`. -/
def ContextBuffer.buffer_has_matches (cb : ContextBuffer) : Bool :=
  cb.buffer.any isMatchCL

/-- Fuel bound for the skip-ahead loop in `fill_buffer`: the loop pulls from
the `LineBuffer`, and the number of pulls before one returns `none` is
bounded by this quantity (proved below for the forward states the classifier
actually runs on). -/
def lbFuel (lb : LineBuffer) : Nat :=
  lb.cached_lines.length + lb.lines.length + lb.last_iter_line + 1

/-- The `while !self.buffer_has_matches()` loop of
`ContextBuffer::fill_buffer`, with explicit fuel.  With the fuel supplied at
the (only) call site the zero-fuel case is never reached
(`fillLoop_fuel_irrelevant` below), so this is exactly the Rust loop. -/
def fillLoop (fs : Str) : Nat → List (Option ContextLine) → LineBuffer →
    Gap → List (Option ContextLine) × LineBuffer × Gap
  | 0, buffer, lb, gap => (buffer, lb, gap)
  | fuel + 1, buffer, lb, gap =>
    if buffer.any isMatchCL then (buffer, lb, gap)
    else
      match lb.next with
      | (some nl, lb') =>
        let context_line := ContextLine.from_numbered_line nl fs
        let gap' := if isMatchCL (some context_line) then Gap.Current else gap
        fillLoop fs fuel (buffer.drop 1 ++ [some context_line]) lb' gap'
      | (none, lb') => ([], lb', gap)

/-- Rust `ContextBuffer::fill_buffer`. -/
def ContextBuffer.fill_buffer (cb : ContextBuffer) : ContextBuffer :=
  match cb.filter_predicate with
  | some fp =>
    let (item0, lb1) := cb.iter.next
    let item := item0.map (fun nl =>
      ContextLine.from_numbered_line nl fp.filter_string)
    let buffer1 := cb.buffer.drop 1 ++ [item]
    let res := fillLoop fp.filter_string (lbFuel lb1) buffer1 lb1 cb.gap
    { cb with buffer := res.1, iter := res.2.1, gap := res.2.2 }
  | none =>
    let buffer1 := cb.buffer.drop 1
    match cb.iter.next with
    | (some nl, lb1) =>
      { cb with buffer := buffer1 ++ [some (ContextLine.NoMatch nl)],
                iter := lb1 }
    | (none, lb1) => { cb with buffer := buffer1, iter := lb1 }

/-- Rust `ContextBuffer::classify_cur_line`. -/
def ContextBuffer.classify_cur_line (cb : ContextBuffer) :
    Option FilteredLine :=
  let cur_idx :=
    match cb.filter_predicate with
    | some fp => fp.context_lines
    | none => 0
  (cb.buffer[cur_idx]?).bind (fun maybe_context_line =>
    maybe_context_line.map (fun context_line =>
      context_line.to_filtered_line cb.filter_predicate))

/-- Rust `ContextBuffer::into_line_buffer`. -/
def ContextBuffer.into_line_buffer (cb : ContextBuffer) : LineBuffer :=
  cb.iter

/-- Rust `impl Iterator for ContextBuffer` — `next`. -/
def ContextBuffer.next (cb : ContextBuffer) :
    Option FilteredLine × ContextBuffer :=
  match cb.gap with
  | .None =>
    let cb1 := cb.fill_buffer
    match cb1.gap with
    | .Current => (some .Gap, { cb1 with gap := .Previous })
    | _ => (cb1.classify_cur_line, { cb1 with gap := .None })
  | _ => (cb.classify_cur_line, { cb with gap := .None })

/-- The results of the first `n` successive calls to `ContextBuffer::next`
(`none` entries included). -/
def ContextBuffer.outSeq (cb : ContextBuffer) :
    Nat → List (Option FilteredLine)
  | 0 => []
  | n + 1 =>
    let s := cb.next
    s.1 :: s.2.outSeq n

/-- Rust `Iterator::take(n)` as consumed by `Vec::extend`: yields until `n`
items are produced or the first `none` is hit. -/
def ContextBuffer.takeSome (cb : ContextBuffer) :
    Nat → List FilteredLine × ContextBuffer
  | 0 => ([], cb)
  | n + 1 =>
    match cb.next with
    | (some x, cb') =>
      let (rest, cb'') := cb'.takeSome n
      (x :: rest, cb'')
    | (none, cb') => ([], cb')

/-- Rust `struct WindowBuffer` (src/iter/window_buffer.rs).  The original
holds `Option<ContextBuffer>` solely to move the inner `LineBuffer` out in
`set_predicate` (with `expect("context_buffer must always be Some")`); it is
always `Some` between method calls, so it is modelled as a plain field. -/
structure WindowBuffer where
  context_buffer : ContextBuffer
  buffered_lines : List FilteredLine
  predicate : Option FilterPredicate
  width : Nat
  height : Nat
  start_line : Nat
  end_line : Nat
deriving DecidableEq, Repr

/-- Rust `WindowBuffer::new`. -/
def WindowBuffer.new (iter : List Str) (predicate : Option FilterPredicate)
    (width height : Nat) : WindowBuffer :=
  let line_buffer := LineBuffer.new iter
  let context_buffer := ContextBuffer.new predicate line_buffer
  ⟨context_buffer, [], predicate, width, height, 0, 0⟩

/-- Rust `WindowBuffer::set_predicate`. -/
def WindowBuffer.set_predicate (wb : WindowBuffer)
    (predicate : Option FilterPredicate) : WindowBuffer :=
  let line_buffer := wb.context_buffer.into_line_buffer
  let line_buffer := line_buffer.seek (some 1) none
  { wb with
    context_buffer := ContextBuffer.new predicate line_buffer,
    predicate := predicate,
    buffered_lines := [],
    end_line := 0 }

/-- Rust `WindowBuffer::fill_buffer`: ensures the cache holds at least
`limit` classified lines (the `num_new_lines as i64 > 0` test becomes the
`<` guard). -/
def WindowBuffer.fill_buffer (wb : WindowBuffer) (limit : Nat) :
    WindowBuffer :=
  if wb.buffered_lines.length < limit then
    let res := wb.context_buffer.takeSome (limit - wb.buffered_lines.length)
    { wb with context_buffer := res.2,
              buffered_lines := wb.buffered_lines ++ res.1 }
  else wb

/-- Rust `WindowBuffer::get_lines`.  The original `assert!(start >= 1)`
aborts on `start = 0`; every in-repo caller passes `start ≥ 1`, and the
model returns the empty slice on that dead path. -/
def WindowBuffer.get_lines (wb : WindowBuffer) (start num_lines : Nat) :
    List FilteredLine × WindowBuffer :=
  if start < 1 then ([], wb)
  else
    let start0 := start - 1
    let end_desired := start0 + num_lines
    let wb1 := wb.fill_buffer end_desired
    let e :=
      if end_desired ≤ wb1.buffered_lines.length then end_desired
      else wb1.buffered_lines.length
    let wb2 := { wb1 with start_line := start0 + 1, end_line := e }
    (((wb2.buffered_lines).drop start0).take (e - start0), wb2)

/-- Rust `WindowBuffer::next_line`.  In the source the final
`self.end_line = if lines.len() > 0 { next_line } else { self.end_line }`
reads `self.end_line` after `get_lines` already updated it. -/
def WindowBuffer.next_line (wb : WindowBuffer) :
    Option FilteredLine × WindowBuffer :=
  let next_l := wb.end_line + 1
  let res := wb.get_lines next_l 1
  let wb2 :=
    { res.2 with
      end_line := if res.1.length > 0 then next_l else res.2.end_line }
  (res.1.head?, wb2)

/-- Rust `WindowBuffer::prev_line`.  The guard is
`end_line as i64 - height as i64 <= 0`, i.e. `end_line ≤ height`. -/
def WindowBuffer.prev_line (wb : WindowBuffer) :
    Option FilteredLine × WindowBuffer :=
  if wb.end_line ≤ wb.height then (none, wb)
  else
    let next_l :=
      if wb.end_line - wb.height > 0 then wb.end_line - wb.height else 0
    let new_end_line := if wb.end_line > 0 then wb.end_line - 1 else 0
    let res := wb.get_lines next_l 1
    let wb2 :=
      { res.2 with
        end_line := if res.1.length > 0 then new_end_line else res.2.end_line }
    (res.1.head?, wb2)

/-- Rust `WindowBuffer::next_page`. -/
def WindowBuffer.next_page (wb : WindowBuffer) :
    List FilteredLine × WindowBuffer :=
  wb.get_lines (wb.end_line + 1) wb.height

/-- Rust `WindowBuffer::prev_page`.  The guard is
`start_line as i64 - height as i64 >= 1`, i.e. `height + 1 ≤ start_line`. -/
def WindowBuffer.prev_page (wb : WindowBuffer) :
    List FilteredLine × WindowBuffer :=
  let start_l :=
    if wb.height + 1 ≤ wb.start_line then wb.start_line - wb.height else 1
  wb.get_lines start_l wb.height

/-!
## Specification layer

A pure description of the classifier, against which the stateful machine
above is proved equivalent.  Throughout, `k` is the index of the "current"
line (the slot at deque index `r`), and the classifier's deque in any
reachable live state is `windowList src fs r k`: the classified lines at
source positions `k - r, …, k + r` with `none` outside `[1, src.length]`.
-/

/-- The text of source line `i` (1-based); `[]` out of range. -/
def lineAt (src : List Str) (i : Nat) : Str :=
  (src[i-1]?).getD []

/-- Whether source line `i` (1-based) contains `fs`. -/
def lineMatches (src : List Str) (fs : Str) (i : Nat) : Bool :=
  if i < 1 then false
  else
    match src[i-1]? with
    | some line => strContains line fs
    | none => false

/-- The classified slot for source position `i` (1-based); `none` when `i`
is outside the source. -/
def optLine (src : List Str) (fs : Str) (i : Nat) : Option ContextLine :=
  if i < 1 then none
  else (src[i-1]?).map (fun line =>
    ContextLine.from_numbered_line (i, line) fs)

/-- The classifier's deque when the current line is at position `k`. -/
def windowList (src : List Str) (fs : Str) (r k : Nat) :
    List (Option ContextLine) :=
  (List.range (2 * r + 1)).map (fun j => optLine src fs (k + j - r))

/-- Whether the window centered at `k` contains a matching line. -/
def winHasMatch (src : List Str) (fs : Str) (r k : Nat) : Bool :=
  (windowList src fs r k).any isMatchCL

/-- The least matching source position strictly greater than `lo`. -/
def nextMatch (src : List Str) (fs : Str) (lo : Nat) : Option Nat :=
  (List.range' (lo + 1) (src.length - lo)).find?
    (fun j => lineMatches src fs j)

/-- The emitted classification of source position `i` under an active
predicate (only used for `1 ≤ i ≤ src.length`). -/
def toFL (src : List Str) (fs : Str) (i : Nat) : FilteredLine :=
  if lineMatches src fs i then .MatchLine (i, lineAt src i)
  else .ContextLine (i, lineAt src i)

/-- The pure classifier stream: all the `some`-outputs the machine will
produce from a live state whose current position is `k` and whose gap flag
is `Gap.None`.  One step of the machine either advances to `k + 1` and
emits that line (window still has a match), silently ends (current position
past the source), emits a `Gap` after skipping to just below the next match
`j`, or ends for good (no further match). -/
def emitFrom (src : List Str) (fs : Str) (r : Nat) (k : Nat) :
    List FilteredLine :=
  if winHasMatch src fs r (k + 1) then
    if h2 : k + 1 ≤ src.length then
      toFL src fs (k + 1) :: emitFrom src fs r (k + 1)
    else []
  else
    match hnm : nextMatch src fs (k + 1 + r) with
    | some j => .Gap :: toFL src fs (j - r) :: emitFrom src fs r (j - r)
    | none => []
termination_by src.length - k
decreasing_by
  · omega
  · unfold nextMatch at hnm
    have h1 := List.mem_range'_1.mp (List.mem_of_find?_eq_some hnm)
    omega

/-- Truncation/padding of a pure stream to the first `n` machine outputs. -/
def padNone (n : Nat) (l : List FilteredLine) : List (Option FilteredLine) :=
  (l.map some).take n ++ List.replicate (n - l.length) none

/-- The complete classified stream for a predicate over a finite source:
all `some`-outputs of the classifier (`2 * src.length + 1` calls are enough
to exhaust it, as proved below). -/
def classifierOut (src : List Str) (fp : FilterPredicate) :
    List FilteredLine :=
  ((ContextBuffer.new (some fp) (LineBuffer.new src)).outSeq
    (2 * src.length + 1)).filterMap id

/-- A synchronized `LineBuffer` over `src`: `c` lines cached, cursor at
`q`, moving forward.  Every line buffer the pipeline ever produces has this
shape. -/
def lbS (src : List Str) (c q : Nat) : LineBuffer :=
  ⟨src.drop c, numberFrom 1 (src.take c), q, .FORWARD⟩

/-- A live classifier state: current position `k`, `c` lines cached in the
inner buffer, gap flag `g`.  The inner cursor always sits at
`min (k + r) src.length`. -/
def cbA (src : List Str) (fs : Str) (r k c : Nat) (g : Gap) : ContextBuffer :=
  ⟨some ⟨fs, r⟩, windowList src fs r k, lbS src c (min (k + r) src.length), g⟩

/-- The terminal (source exhausted, deque cleared) classifier state. -/
def cbB (src : List Str) (fs : Str) (r : Nat) : ContextBuffer :=
  ⟨some ⟨fs, r⟩, [], lbS src src.length src.length, .None⟩

/-- The predicate-free classifier state after `k` calls to `next`. -/
def cbN (src : List Str) (k c : Nat) : ContextBuffer :=
  ⟨none,
   if 1 ≤ k ∧ k ≤ src.length then
     [some (ContextLine.NoMatch (k, lineAt src k))]
   else [],
   lbS src c (min k src.length), .None⟩

/-- Context lines at positions `a, …, a + len - 1`. -/
def ctxList (src : List Str) (a len : Nat) : List FilteredLine :=
  (List.range' a len).map (fun i => FilteredLine.ContextLine (i, lineAt src i))

/-- The matching lines of the source strictly after position `k`, each as a
`MatchLine` with its original number. -/
def matchedFrom (src : List Str) (fs : Str) (k : Nat) : List FilteredLine :=
  ((numberFrom (k + 1) (src.drop k)).filter
    (fun nl => strContains nl.2 fs)).map FilteredLine.MatchLine

/-- A line buffer is synchronized over `src`: its cache is a numbered
prefix, its pending lines the matching suffix, its cursor in range.  Every
line buffer the window pipeline ever produces has this shape. -/
def LBSynced (src : List Str) (lb : LineBuffer) : Prop :=
  ∃ c q, c ≤ src.length ∧ q ≤ src.length ∧ lb = lbS src c q

/-- The window invariant over `src`: the classifier's inner line buffer is
synchronized. -/
def WBSynced (src : List Str) (wb : WindowBuffer) : Prop :=
  LBSynced src wb.context_buffer.iter

/-- The viewport invariant: the cursor never points past the cache. -/
def WBBounded (wb : WindowBuffer) : Prop :=
  wb.end_line ≤ wb.buffered_lines.length

/-- Notation-free shorthand used in the statements of the concrete
scenarios. -/
def str (x : String) : Str := x.toList

/-- The 12-line source of the spec's concrete scenario 1 (claim C1). -/
def src12 : List Str :=
  [str "none", str "ctx", str "ctx", str "match", str "ctx", str "ctx",
   str "none", str "none", str "ctx", str "ctx", str "match", str "ctx"]

/-- A 10-line source (single-letter lines) for the paging scenario (C8). -/
def src10 : List Str :=
  [str "a", str "b", str "c", str "d", str "e", str "f", str "g", str "h",
   str "i", str "j"]

/-- A 4-line source for the `prev_line` counterexample (C9). -/
def src4 : List Str := [str "a", str "b", str "c", str "d"]

/-- A 3-line source for the backward-`next` counterexample (C6). -/
def src3 : List Str := [str "one", str "two", str "three"]

/-- A 5-line source with two matches at distance 4 (witness for C2). -/
def src5 : List Str :=
  [str "match", str "none", str "none", str "none", str "match"]

/-- The paging scenario of the spec: a height-3 window over `src10` with
no predicate, after `n` calls to `next_page` (C8). -/
def c8w : Nat → WindowBuffer
  | 0 => WindowBuffer.new src10 none 80 3
  | n + 1 => ((c8w n).next_page).2

/-- A backward-direction line buffer with two memoized lines (witness for
the amended C6). -/
def lbB : LineBuffer :=
  ⟨[str "three"], [(1, str "one"), (2, str "two")], 3,
    IterDirection.BACKWARD⟩

/-- A height-2 window over `src4` after four `next_line` calls (C9). -/
def c9wb : WindowBuffer :=
  (((((WindowBuffer.new src4 none 80 2).next_line).2.next_line).2.next_line).2.next_line).2

/-!
## Basic lemmas about numbering and the synchronized line buffer
-/

theorem strContains_nil (hay : Str) : strContains hay [] = true := by
  cases hay <;> simp [strContains, List.tails, List.isPrefixOf]

theorem numberFrom_length (n₀ : Nat) (l : List Str) :
    (numberFrom n₀ l).length = l.length := by
  induction l generalizing n₀ with
  | nil => rfl
  | cons s rest ih => simp [numberFrom, ih]

theorem numberFrom_getElem? (n₀ i : Nat) (l : List Str) :
    (numberFrom n₀ l)[i]? = (l[i]?).map (fun s => (n₀ + i, s)) := by
  induction l generalizing n₀ i with
  | nil => simp [numberFrom]
  | cons s rest ih =>
    cases i with
    | zero => simp [numberFrom]
    | succ i =>
      simp only [numberFrom, List.getElem?_cons_succ, ih]
      have : n₀ + 1 + i = n₀ + (i + 1) := by omega
      rw [this]

theorem numberFrom_append (n₀ : Nat) (l₁ l₂ : List Str) :
    numberFrom n₀ (l₁ ++ l₂) =
      numberFrom n₀ l₁ ++ numberFrom (n₀ + l₁.length) l₂ := by
  apply List.ext_getElem?
  intro i
  rw [numberFrom_getElem?, List.getElem?_append, List.getElem?_append,
    numberFrom_length, numberFrom_getElem?, numberFrom_getElem?]
  by_cases h : i < l₁.length
  · simp [h]
  · simp only [if_neg h]
    have : n₀ + l₁.length + (i - l₁.length) = n₀ + i := by omega
    rw [this]

theorem lbS_cached_length (src : List Str) (c q : Nat)
    (hc : c ≤ src.length) : (lbS src c q).cached_lines.length = c := by
  simp [lbS, numberFrom_length, Nat.min_eq_left hc]

theorem lbS_cached_getElem? (src : List Str) (c q i : Nat) :
    (lbS src c q).cached_lines[i]? =
      if i < c then (src[i]?).map (fun s => (i + 1, s)) else none := by
  simp only [lbS, numberFrom_getElem?, List.getElem?_take]
  by_cases h : i < c
  · simp [h, Nat.add_comm]
  · simp [h]

/-- Functional correctness of `get` on a synchronized buffer. -/
theorem get_lbS (src : List Str) (c q : Nat) (hc : c ≤ src.length) (m : Nat) :
    (lbS src c q).get m =
      (if m < 1 then none else (src[m-1]?).map (fun s => (m, s)),
        lbS src (max c (min m src.length)) q) := by
  rw [LineBuffer.get]
  by_cases hm : m < 1
  · have hm0 : m = 0 := by omega
    subst hm0
    simp only [if_pos (by omega : (0:Nat) < 1)]
    have : max c (min 0 src.length) = c := by omega
    rw [this]
  · simp only [if_neg hm]
    have hlen : (lbS src c q).cached_lines.length = c := lbS_cached_length src c q hc
    rw [hlen]
    by_cases hmc : m > c
    · simp only [if_pos hmc]
      have hmax : max c (min m src.length) = min m src.length := by omega
      rw [hmax]
      have hcc : (lbS src c q).cached_lines ++
          numberFrom (c + 1) ((lbS src c q).lines.take (m - c)) =
          numberFrom 1 (src.take (min m src.length)) := by
        apply List.ext_getElem?
        intro i
        show ((numberFrom 1 (src.take c)) ++
          numberFrom (c + 1) ((src.drop c).take (m - c)))[i]? = _
        rw [List.getElem?_append, numberFrom_length, List.length_take,
          Nat.min_eq_left hc, numberFrom_getElem?, numberFrom_getElem?,
          numberFrom_getElem?, List.getElem?_take, List.getElem?_take,
          List.getElem?_take, List.getElem?_drop]
        by_cases h1 : i < c
        · simp only [if_pos h1, if_pos (show i < m ⊓ src.length by omega)]
        · simp only [if_neg h1]
          by_cases h4 : i - c < m - c
          · simp only [if_pos h4]
            have e1 : c + (i - c) = i := by omega
            have e2 : c + 1 + (i - c) = 1 + i := by omega
            rw [e1, e2]
            by_cases h5 : i < m ⊓ src.length
            · simp only [if_pos h5]
            · simp only [if_neg h5]
              rw [List.getElem?_eq_none (show src.length ≤ i by omega)]
          · simp only [if_neg h4,
              if_neg (show ¬ i < m ⊓ src.length by omega), Option.map_none']
      have hll : (lbS src c q).lines.drop (m - c) = src.drop (min m src.length) := by
        show (src.drop c).drop (m - c) = _
        rw [List.drop_drop]
        have e1 : c + (m - c) = m := by omega
        rw [e1]
        by_cases h : m ≤ src.length
        · rw [Nat.min_eq_left h]
        · rw [Nat.min_eq_right (by omega)]
          rw [List.drop_eq_nil_of_le (by omega), List.drop_eq_nil_of_le (by omega)]
      have hstate : ({ lbS src c q with
          cached_lines := (lbS src c q).cached_lines ++
            numberFrom (c + 1) ((lbS src c q).lines.take (m - c)),
          lines := (lbS src c q).lines.drop (m - c) } : LineBuffer) =
          lbS src (min m src.length) q := by
        rw [hcc, hll]
        rfl
      rw [hstate, hcc]
      have hval : (numberFrom 1 (src.take (min m src.length)))[m-1]? =
          (src[m-1]?).map (fun s => (m, s)) := by
        rw [numberFrom_getElem?, List.getElem?_take]
        by_cases h : m - 1 < min m src.length
        · simp only [if_pos h]
          have : 1 + (m - 1) = m := by omega
          rw [this]
        · simp only [if_neg h]
          have : src.length ≤ m - 1 := by omega
          rw [List.getElem?_eq_none this]
          simp
      rw [hval]
    · simp only [if_neg hmc]
      have hmax : max c (min m src.length) = c := by omega
      rw [hmax]
      have hval : (lbS src c q).cached_lines[m-1]? =
          (src[m-1]?).map (fun s => (m, s)) := by
        rw [lbS_cached_getElem?]
        have h : m - 1 < c := by omega
        simp only [if_pos h]
        have : m - 1 + 1 = m := by omega
        rw [this]
      rw [hval]

/-- Functional correctness of forward `next` on a synchronized buffer. -/
theorem next_lbS (src : List Str) (c q : Nat) (hc : c ≤ src.length) :
    (lbS src c q).next =
      ((src[q]?).map (fun s => (q + 1, s)),
        if q < src.length then lbS src (max c (q + 1)) (q + 1)
        else lbS src src.length q) := by
  rw [LineBuffer.next]
  have hdir : (lbS src c q).iter_direction = IterDirection.FORWARD := rfl
  have hlast : (lbS src c q).last_iter_line = q := rfl
  rw [hdir, hlast]
  simp only
  rw [get_lbS src c q hc (q + 1)]
  simp only [if_neg (by omega : ¬ q + 1 < 1), Nat.add_sub_cancel]
  by_cases hq : q < src.length
  · have hsome : (src[q]?).map (fun s => (q + 1, s)) = some (q + 1, src[q]) := by
      rw [List.getElem?_eq_getElem hq]
      rfl
    rw [hsome]
    simp only [if_pos hq]
    have hmin : min (q + 1) src.length = q + 1 := by omega
    rw [hmin]
    rfl
  · have hnone : (src[q]?) = none := List.getElem?_eq_none (by omega)
    rw [hnone]
    simp only [Option.map_none', if_neg hq]
    have hmin : min (q + 1) src.length = src.length := by omega
    rw [hmin]
    have hmax : max c src.length = src.length := by omega
    rw [hmax]

theorem lbS_congr (src : List Str) (a b a' b' : Nat) (h1 : a = a')
    (h2 : b = b') : lbS src a b = lbS src a' b' := by
  rw [h1, h2]

/-- Functional correctness of `nextN` on a synchronized buffer. -/
theorem nextN_lbS (src : List Str) (m : Nat) : ∀ c q, c ≤ src.length →
    q ≤ src.length →
    (lbS src c q).nextN m =
      (numberFrom (q + 1) ((src.drop q).take m),
        if m = 0 then lbS src c q
        else lbS src (max c (min (q + m) src.length)) (min (q + m) src.length)) := by
  induction m with
  | zero =>
    intro c q hc hq
    rfl
  | succ m ih =>
    intro c q hc hq
    rw [LineBuffer.nextN, next_lbS src c q hc]
    by_cases hqn : q < src.length
    · have hsome : (src[q]?).map (fun s => (q + 1, s)) = some (q + 1, src[q]) := by
        rw [List.getElem?_eq_getElem hqn]
        rfl
      rw [hsome]
      simp only [if_pos hqn]
      rw [ih (max c (q + 1)) (q + 1) (by omega) (by omega)]
      have hv : (src.drop q).take (m + 1) = src[q] :: (src.drop (q + 1)).take m := by
        rw [List.drop_eq_getElem_cons hqn, List.take_succ_cons]
      rw [hv]
      have hnf : numberFrom (q + 1) (src[q] :: (src.drop (q + 1)).take m) =
          (q + 1, src[q]) :: numberFrom (q + 1 + 1) ((src.drop (q + 1)).take m) :=
        rfl
      rw [hnf]
      by_cases hm : m = 0
      · subst hm
        simp only [if_pos rfl, if_neg (show ¬ (0:Nat) + 1 = 0 by omega)]
        exact congrArg₂ Prod.mk rfl (lbS_congr src _ _ _ _ (by omega) (by omega))
      · simp only [if_neg hm, if_neg (show ¬ m + 1 = 0 by omega)]
        exact congrArg₂ Prod.mk rfl (lbS_congr src _ _ _ _ (by omega) (by omega))
    · have hnone : (src[q]?) = none := List.getElem?_eq_none (by omega)
      rw [hnone]
      simp only [Option.map_none', if_neg hqn]
      have hqe : q = src.length := by omega
      subst hqe
      have hd : src.drop src.length = ([] : List Str) :=
        List.drop_eq_nil_of_le (by omega)
      rw [hd]
      simp only [List.take_nil]
      rw [if_neg (show ¬ m + 1 = 0 by omega)]
      exact congrArg₂ Prod.mk rfl (lbS_congr src _ _ _ _ (by omega) (by omega))

/-- Indexing the spec-level window. -/
theorem windowList_getElem? (src : List Str) (fs : Str) (r k j : Nat) :
    (windowList src fs r k)[j]? =
      if j < 2 * r + 1 then some (optLine src fs (k + j - r)) else none := by
  rw [windowList, List.getElem?_map]
  by_cases h : j < 2 * r + 1
  · rw [List.getElem?_range h]
    simp [h]
  · rw [List.getElem?_eq_none (by simp [List.length_range]; omega)]
    simp [h]

theorem windowList_length (src : List Str) (fs : Str) (r k : Nat) :
    (windowList src fs r k).length = 2 * r + 1 := by
  simp [windowList, List.length_range]

/-- The deque shift of one `fill_buffer` push: popping the front of the
window at `k` and pushing the classification of position `k + 1 + r` yields
the window at `k + 1`. -/
theorem windowList_shift (src : List Str) (fs : Str) (r k : Nat) :
    (windowList src fs r k).drop 1 ++ [optLine src fs (k + r + 1)] =
      windowList src fs r (k + 1) := by
  apply List.ext_getElem?
  intro j
  rw [List.getElem?_append, List.getElem?_drop, windowList_getElem?,
    windowList_getElem?]
  have hlen : ((windowList src fs r k).drop 1).length = 2 * r := by
    simp [windowList, List.length_range]
  rw [hlen]
  by_cases h : j < 2 * r
  · simp only [if_pos h, if_pos (show 1 + j < 2 * r + 1 by omega),
      if_pos (show j < 2 * r + 1 by omega)]
    have e1 : k + (1 + j) - r = k + 1 + j - r := by omega
    rw [e1]
  · simp only [if_neg h]
    by_cases h2 : j = 2 * r
    · subst h2
      simp only [Nat.sub_self, if_pos (show 2 * r < 2 * r + 1 by omega)]
      have e1 : k + 1 + 2 * r - r = k + r + 1 := by omega
      rw [e1]
      rfl
    · rw [List.getElem?_eq_none (show ([optLine src fs (k+r+1)]).length ≤ j - 2*r by
        simp; omega)]
      rw [if_neg (by omega)]

theorem optLine_eq_none_low (src : List Str) (fs : Str) (i : Nat) (h : i < 1) :
    optLine src fs i = none := by
  rw [optLine, if_pos h]

theorem optLine_eq_none_high (src : List Str) (fs : Str) (i : Nat)
    (h : src.length < i) : optLine src fs i = none := by
  rw [optLine]
  by_cases h1 : i < 1
  · rw [if_pos h1]
  · rw [if_neg h1, List.getElem?_eq_none (by omega)]
    rfl

theorem optLine_eq_some (src : List Str) (fs : Str) (i : Nat) (h1 : 1 ≤ i)
    (h2 : i ≤ src.length) :
    optLine src fs i =
      some (ContextLine.from_numbered_line (i, src[i-1]) fs) := by
  rw [optLine, if_neg (by omega), List.getElem?_eq_getElem (by omega)]
  rfl

theorem isMatchCL_optLine (src : List Str) (fs : Str) (i : Nat) :
    isMatchCL (optLine src fs i) = lineMatches src fs i := by
  rw [optLine, lineMatches]
  by_cases h : i < 1
  · simp [h, isMatchCL]
  · simp only [if_neg h]
    cases hsv : src[i-1]? with
    | none => simp [isMatchCL]
    | some line =>
      simp only [Option.map_some']
      rw [ContextLine.from_numbered_line]
      by_cases hm : strContains line fs
      · simp [hm, isMatchCL]
      · simp [hm, isMatchCL]

theorem lineMatches_low (src : List Str) (fs : Str) (i : Nat) (h : i < 1) :
    lineMatches src fs i = false := by
  rw [lineMatches, if_pos h]

theorem lineMatches_high (src : List Str) (fs : Str) (i : Nat)
    (h : src.length < i) : lineMatches src fs i = false := by
  rw [lineMatches, if_neg (by omega), List.getElem?_eq_none (by omega)]

/-- The window at `k` has a match iff some in-range position within `r` of
`k` matches. -/
theorem winHasMatch_iff (src : List Str) (fs : Str) (r k : Nat) :
    winHasMatch src fs r k = true ↔
      ∃ i, 1 ≤ i ∧ i ≤ src.length ∧ k ≤ i + r ∧ i ≤ k + r ∧
        lineMatches src fs i = true := by
  rw [winHasMatch, List.any_eq_true]
  constructor
  · rintro ⟨x, hx, hpx⟩
    rw [windowList, List.mem_map] at hx
    obtain ⟨j, hj, rfl⟩ := hx
    rw [List.mem_range] at hj
    rw [isMatchCL_optLine] at hpx
    refine ⟨k + j - r, ?_, ?_, by omega, ?_, hpx⟩
    · by_contra hcon
      rw [lineMatches_low src fs _ (by omega)] at hpx
      exact absurd hpx (by simp)
    · by_contra hcon
      rw [lineMatches_high src fs _ (by omega)] at hpx
      exact absurd hpx (by simp)
    · omega
  · rintro ⟨i, h1, h2, h3, h4, hm⟩
    refine ⟨optLine src fs (k + (i + r - k) - r), ?_, ?_⟩
    · rw [windowList, List.mem_map]
      exact ⟨i + r - k, by rw [List.mem_range]; omega, rfl⟩
    · rw [isMatchCL_optLine]
      have e1 : k + (i + r - k) - r = i := by omega
      rw [e1]
      exact hm

theorem nextMatch_none_of_ge (src : List Str) (fs : Str) (lo : Nat)
    (h : src.length ≤ lo) : nextMatch src fs lo = none := by
  rw [nextMatch]
  have e1 : src.length - lo = 0 := by omega
  rw [e1]
  rfl

theorem nextMatch_succ (src : List Str) (fs : Str) (lo : Nat)
    (h : lo < src.length) :
    nextMatch src fs lo =
      if lineMatches src fs (lo + 1) then some (lo + 1)
      else nextMatch src fs (lo + 1) := by
  rw [nextMatch, nextMatch]
  have e1 : src.length - lo = (src.length - (lo + 1)) + 1 := by omega
  rw [e1, List.range'_succ, List.find?_cons]
  cases hm : lineMatches src fs (lo + 1)
  · simp
  · simp

theorem nextMatch_spec_some (src : List Str) (fs : Str) :
    ∀ lo j, nextMatch src fs lo = some j →
      lo < j ∧ j ≤ src.length ∧ lineMatches src fs j = true ∧
        ∀ x, lo < x → x < j → lineMatches src fs x = false := by
  have H : ∀ d lo j, src.length - lo ≤ d → nextMatch src fs lo = some j →
      lo < j ∧ j ≤ src.length ∧ lineMatches src fs j = true ∧
        ∀ x, lo < x → x < j → lineMatches src fs x = false := by
    intro d
    induction d with
    | zero =>
      intro lo j hle h
      rw [nextMatch_none_of_ge src fs lo (by omega)] at h
      exact absurd h (by simp)
    | succ d ih =>
      intro lo j hle h
      by_cases hlt : lo < src.length
      · rw [nextMatch_succ src fs lo hlt] at h
        by_cases hm : lineMatches src fs (lo + 1) = true
        · rw [if_pos hm] at h
          have hj : j = lo + 1 := by
            have := h
            simp at this
            omega
          subst hj
          exact ⟨by omega, by omega, hm, fun x hx1 hx2 => by omega⟩
        · rw [if_neg hm] at h
          obtain ⟨ih1, ih2, ih3, ih4⟩ := ih (lo + 1) j (by omega) h
          refine ⟨by omega, ih2, ih3, ?_⟩
          intro x hx1 hx2
          by_cases hx : x = lo + 1
          · subst hx
            simpa using hm
          · exact ih4 x (by omega) hx2
      · rw [nextMatch_none_of_ge src fs lo (by omega)] at h
        exact absurd h (by simp)
  intro lo j h
  exact H (src.length - lo) lo j (by omega) h

theorem nextMatch_spec_none (src : List Str) (fs : Str) :
    ∀ lo, nextMatch src fs lo = none →
      ∀ x, lo < x → x ≤ src.length → lineMatches src fs x = false := by
  have H : ∀ d lo, src.length - lo ≤ d → nextMatch src fs lo = none →
      ∀ x, lo < x → x ≤ src.length → lineMatches src fs x = false := by
    intro d
    induction d with
    | zero =>
      intro lo hle h x hx1 hx2
      omega
    | succ d ih =>
      intro lo hle h x hx1 hx2
      by_cases hlt : lo < src.length
      · rw [nextMatch_succ src fs lo hlt] at h
        by_cases hm : lineMatches src fs (lo + 1) = true
        · rw [if_pos hm] at h
          exact absurd h (by simp)
        · rw [if_neg hm] at h
          by_cases hx : x = lo + 1
          · subst hx
            simpa using hm
          · exact ih (lo + 1) (by omega) h x (by omega) hx2
      · omega
  intro lo h x hx1 hx2
  exact H (src.length - lo) lo (by omega) h x hx1 hx2

theorem nextMatch_eq_some_of (src : List Str) (fs : Str) :
    ∀ lo j, lo < j → j ≤ src.length → lineMatches src fs j = true →
      (∀ x, lo < x → x < j → lineMatches src fs x = false) →
      nextMatch src fs lo = some j := by
  have H : ∀ d lo j, j - lo ≤ d → lo < j → j ≤ src.length →
      lineMatches src fs j = true →
      (∀ x, lo < x → x < j → lineMatches src fs x = false) →
      nextMatch src fs lo = some j := by
    intro d
    induction d with
    | zero =>
      intro lo j hle h1 h2 h3 h4
      omega
    | succ d ih =>
      intro lo j hle h1 h2 h3 h4
      rw [nextMatch_succ src fs lo (by omega)]
      by_cases hj : j = lo + 1
      · subst hj
        rw [if_pos h3]
      · have hm : lineMatches src fs (lo + 1) = false := h4 (lo + 1) (by omega) (by omega)
        rw [if_neg (by simp [hm])]
        exact ih (lo + 1) j (by omega) (by omega) h2 h3
          (fun x hx1 hx2 => h4 x (by omega) hx2)
  intro lo j h1 h2 h3 h4
  exact H (j - lo) lo j (by omega) h1 h2 h3 h4

/-- `ContextBuffer::new` with a predicate over a synchronized buffer at the
start of the source produces the live state at current position `0`. -/
theorem new_some_lbS (src : List Str) (fs : Str) (r c : Nat)
    (hc : c ≤ src.length) :
    ContextBuffer.new (some ⟨fs, r⟩) (lbS src c 0) =
      cbA src fs r 0 (max c (min r src.length)) .None := by
  rw [ContextBuffer.new]
  simp only
  rw [nextN_lbS src r c 0 hc (by omega)]
  simp only
  rw [cbA]
  have hbuf : (List.replicate (r + 1) none ++
      (numberFrom (0 + 1) ((src.drop 0).take r)).map (fun nl =>
        some (ContextLine.from_numbered_line nl fs)) ++
      List.replicate (r * 2 + 1) none).take (r * 2 + 1) =
      windowList src fs r 0 := by
    apply List.ext_getElem?
    intro j
    rw [List.getElem?_take, windowList_getElem?]
    have hlen1 : (List.replicate (r + 1) (none : Option ContextLine)).length
        = r + 1 := List.length_replicate _ _
    have hlen2 : ((numberFrom (0 + 1) ((src.drop 0).take r)).map (fun nl =>
        some (ContextLine.from_numbered_line nl fs))).length
        = min r src.length := by
      rw [List.length_map, numberFrom_length, List.drop_zero, List.length_take]
    by_cases h : j < r * 2 + 1
    · rw [if_pos h, if_pos (by omega), List.getElem?_append, List.getElem?_append,
        hlen1]
      by_cases h1 : j < r + 1
      · rw [if_pos (by rw [List.length_append, hlen1, hlen2]; omega),
          if_pos h1, List.getElem?_replicate, if_pos h1]
        rw [optLine_eq_none_low src fs _ (by omega)]
      · by_cases h2 : j - (r + 1) < min r src.length
        · rw [if_pos (by rw [List.length_append, hlen1, hlen2]; omega),
            if_neg h1, List.getElem?_map, numberFrom_getElem?, List.drop_zero,
            List.getElem?_take, if_pos (by omega)]
          rw [optLine, if_neg (show ¬ 0 + j - r < 1 by omega)]
          have e1 : 0 + 1 + (j - (r + 1)) = 0 + j - r := by omega
          have e2 : 0 + j - r - 1 = j - (r + 1) := by omega
          simp only [e1, e2]
          rw [List.getElem?_eq_getElem (show j - (r+1) < src.length by omega)]
          simp only [Option.map_some']
        · rw [if_neg (by rw [List.length_append, hlen1, hlen2]; omega),
            List.getElem?_replicate, List.length_append, hlen1, hlen2,
            if_pos (by omega)]
          rw [optLine_eq_none_high src fs _ (by omega)]
    · rw [if_neg h, if_neg (by omega)]
  rw [hbuf]
  by_cases hr : r = 0
  · subst hr
    have e1 : max c (min 0 src.length) = c := by omega
    have e2 : min (0 + 0) src.length = 0 := by omega
    rw [e1, e2]
    simp
  · rw [if_neg hr]
    rw [(by omega : 0 + r = r)]

/-- `ContextBuffer::new` without a predicate. -/
theorem new_none (lb : LineBuffer) :
    ContextBuffer.new none lb = ⟨none, [], lb, .None⟩ := rfl

theorem lbFuel_lbS (src : List Str) (c q : Nat) (hc : c ≤ src.length) :
    lbFuel (lbS src c q) = src.length + q + 1 := by
  rw [lbFuel]
  have h1 : (lbS src c q).cached_lines.length = c := lbS_cached_length src c q hc
  have h2 : (lbS src c q).lines.length = src.length - c := by
    simp [lbS]
  have h3 : (lbS src c q).last_iter_line = q := rfl
  rw [h1, h2, h3]
  omega

/-- Behaviour of the `fill_buffer` skip-ahead loop on a live window: it
exits immediately if the window has a match, otherwise skips to just below
the next matching position `j` (recording `Gap.Current`), or clears the
deque when the source runs out of matches. -/
theorem fillLoop_spec (src : List Str) (fs : Str) (r : Nat) :
    ∀ fuel k c g, c ≤ src.length → 1 ≤ fuel →
    src.length + 1 - k ≤ fuel →
    fillLoop fs fuel (windowList src fs r k)
        (lbS src c (min (k + r) src.length)) g =
      if winHasMatch src fs r k then
        (windowList src fs r k, lbS src c (min (k + r) src.length), g)
      else
        match nextMatch src fs (k + r) with
        | some j => (windowList src fs r (j - r), lbS src (max c j) j,
            Gap.Current)
        | none => ([], lbS src src.length src.length, g) := by
  intro fuel
  induction fuel with
  | zero =>
    intro k c g hc h1 h2
    omega
  | succ f ih =>
    intro k c g hc h1 h2
    rw [fillLoop]
    have hw : (windowList src fs r k).any isMatchCL = winHasMatch src fs r k :=
      rfl
    rw [hw]
    by_cases hwm : winHasMatch src fs r k
    · rw [if_pos hwm, if_pos hwm]
    · rw [if_neg hwm, if_neg hwm]
      rw [next_lbS src c (min (k + r) src.length) hc]
      by_cases hkr : k + r < src.length
      · have hq : min (k + r) src.length = k + r := by omega
        rw [hq]
        obtain ⟨v, hv⟩ : ∃ v, src[k + r]? = some v :=
          ⟨src[k + r], List.getElem?_eq_getElem hkr⟩
        rw [hv]
        simp only [Option.map_some', if_pos hkr]
        have hopt : optLine src fs (k + r + 1) =
            some (ContextLine.from_numbered_line (k + r + 1, v) fs) := by
          rw [optLine, if_neg (by omega)]
          have e : k + r + 1 - 1 = k + r := by omega
          rw [e, hv]
          rfl
        have hshift : (windowList src fs r k).drop 1 ++
            [some (ContextLine.from_numbered_line (k + r + 1, v) fs)] =
            windowList src fs r (k + 1) := by
          rw [← hopt, windowList_shift]
        rw [hshift]
        have hmatch : isMatchCL
            (some (ContextLine.from_numbered_line (k + r + 1, v) fs)) =
            lineMatches src fs (k + r + 1) := by
          rw [← hopt, isMatchCL_optLine]
        rw [hmatch]
        have hstate : (lbS src (max c (k + r + 1)) (k + r + 1)) =
            lbS src (max c (k + r + 1)) (min (k + 1 + r) src.length) :=
          lbS_congr src _ _ _ _ rfl (by omega)
        by_cases hlm : lineMatches src fs (k + r + 1) = true
        · rw [if_pos hlm, hstate]
          have hrec := ih (k + 1) (max c (k + r + 1)) Gap.Current
            (by omega) (by omega) (by omega)
          have hw1 : winHasMatch src fs r (k + 1) = true := by
            rw [winHasMatch_iff]
            exact ⟨k + r + 1, by omega, by
              by_contra hcon
              rw [lineMatches_high src fs _ (by omega)] at hlm
              exact absurd hlm (by simp), by omega, by omega, hlm⟩
          rw [hrec, if_pos hw1]
          have hnm : nextMatch src fs (k + r) = some (k + r + 1) := by
            apply nextMatch_eq_some_of src fs (k + r) (k + r + 1) (by omega)
            · by_contra hcon
              rw [lineMatches_high src fs _ (by omega)] at hlm
              exact absurd hlm (by simp)
            · exact hlm
            · intro x hx1 hx2
              omega
          rw [hnm]
          simp only
          refine congrArg₂ Prod.mk ?_ ?_
          · have e2 : k + r + 1 - r = k + 1 := by omega
            rw [e2]
          · refine congrArg₂ Prod.mk ?_ rfl
            exact lbS_congr src _ _ _ _ (by omega) (by omega)
        · rw [if_neg hlm, hstate]
          have hrec := ih (k + 1) (max c (k + r + 1)) g
            (by omega) (by omega) (by omega)
          have hw1 : winHasMatch src fs r (k + 1) = false := by
            by_contra hcon
            have hcon2 : winHasMatch src fs r (k + 1) = true := by
              revert hcon
              cases winHasMatch src fs r (k + 1) <;> simp
            rw [winHasMatch_iff] at hcon2
            obtain ⟨i, hi1, hi2, hi3, hi4, hi5⟩ := hcon2
            by_cases hik : i ≤ k + r
            · have : winHasMatch src fs r k = true := by
                rw [winHasMatch_iff]
                exact ⟨i, hi1, hi2, by omega, by omega, hi5⟩
              exact hwm this
            · have hie : i = k + r + 1 := by omega
              subst hie
              rw [hi5] at hlm
              exact hlm rfl
          rw [hrec, if_neg (by simp [hw1])]
          have hnm : nextMatch src fs (k + r) = nextMatch src fs (k + 1 + r) := by
            rw [nextMatch_succ src fs (k + r) (by omega)]
            rw [if_neg (by simp [hlm] : ¬ lineMatches src fs (k + r + 1) = true)]
            rw [(by omega : k + r + 1 = k + 1 + r)]
          rw [hnm]
          cases hj : nextMatch src fs (k + 1 + r) with
          | none => rfl
          | some j =>
            simp only
            refine congrArg₂ Prod.mk rfl (congrArg₂ Prod.mk ?_ rfl)
            have hjs := nextMatch_spec_some src fs _ _ hj
            exact lbS_congr src _ _ _ _ (by omega) rfl
      · have hq : min (k + r) src.length = src.length := by omega
        rw [hq]
        have hnone : (src[src.length]?) = none := List.getElem?_eq_none (by omega)
        rw [hnone]
        simp only [Option.map_none', if_neg (show ¬ src.length < src.length by omega)]
        have hnm : nextMatch src fs (k + r) = none :=
          nextMatch_none_of_ge src fs _ (by omega)
        rw [hnm]

theorem lineAt_eq (src : List Str) (i : Nat) (h : i - 1 < src.length) :
    lineAt src i = src[i-1] := by
  rw [lineAt, List.getElem?_eq_getElem h]
  rfl

/-- `classify_cur_line` on a live state reads the slot of position `k`. -/
theorem classify_cbA (src : List Str) (fs : Str) (r k c : Nat) (g : Gap) :
    (cbA src fs r k c g).classify_cur_line =
      (optLine src fs k).map (fun cl =>
        cl.to_filtered_line (some ⟨fs, r⟩)) := by
  rw [ContextBuffer.classify_cur_line]
  simp only [cbA]
  rw [windowList_getElem?, if_pos (by omega : r < 2 * r + 1)]
  rw [(by omega : k + r - r = k)]
  rfl

/-- On an in-range position the classified slot maps to `toFL`. -/
theorem optLine_toFL (src : List Str) (fs : Str) (fp : FilterPredicate)
    (k : Nat) (h1 : 1 ≤ k) (h2 : k ≤ src.length) :
    (optLine src fs k).map (fun cl => cl.to_filtered_line (some fp)) =
      some (toFL src fs k) := by
  obtain ⟨v, hv⟩ : ∃ v, src[k - 1]? = some v :=
    ⟨src[k - 1], List.getElem?_eq_getElem (by omega)⟩
  rw [optLine, if_neg (by omega), hv]
  simp only [Option.map_some']
  rw [ContextLine.from_numbered_line, toFL]
  have hlm : lineMatches src fs k = strContains v fs := by
    rw [lineMatches, if_neg (by omega), hv]
  have hla : lineAt src k = v := by
    rw [lineAt, hv]
    rfl
  by_cases hm : strContains v fs
  · rw [if_pos hm, if_pos (by rw [hlm]; exact hm)]
    rw [ContextLine.to_filtered_line, hla]
  · rw [if_neg hm, if_neg (by rw [hlm]; exact hm)]
    rw [ContextLine.to_filtered_line, hla]

theorem optLine_out_none (src : List Str) (fs : Str) (fp : Option FilterPredicate)
    (k : Nat) (h : ¬ (1 ≤ k ∧ k ≤ src.length)) :
    (optLine src fs k).map (fun cl => cl.to_filtered_line fp) = none := by
  by_cases h1 : k < 1
  · rw [optLine_eq_none_low src fs k h1]
    rfl
  · rw [optLine_eq_none_high src fs k (by omega)]
    rfl

/-- `fill_buffer` on a live (`Gap.None`) state. -/
theorem fill_buffer_A (src : List Str) (fs : Str) (r k c : Nat)
    (hc : c ≤ src.length) :
    (cbA src fs r k c Gap.None).fill_buffer =
      if winHasMatch src fs r (k + 1) then
        cbA src fs r (k + 1) (max c (min (k + 1 + r) src.length)) Gap.None
      else
        match nextMatch src fs (k + 1 + r) with
        | some j => cbA src fs r (j - r) (max c j) Gap.Current
        | none => cbB src fs r := by
  rw [ContextBuffer.fill_buffer]
  simp only [cbA]
  rw [next_lbS src c (min (k + r) src.length) hc]
  by_cases hkr : k + r < src.length
  · have hq : min (k + r) src.length = k + r := by omega
    rw [hq]
    obtain ⟨v, hv⟩ : ∃ v, src[k + r]? = some v :=
      ⟨src[k + r], List.getElem?_eq_getElem hkr⟩
    rw [hv]
    simp only [Option.map_some', if_pos hkr]
    have hopt : optLine src fs (k + r + 1) =
        some (ContextLine.from_numbered_line (k + r + 1, v) fs) := by
      rw [optLine, if_neg (by omega)]
      have e : k + r + 1 - 1 = k + r := by omega
      rw [e, hv]
      rfl
    have hshift : (windowList src fs r k).drop 1 ++
        [some (ContextLine.from_numbered_line (k + r + 1, v) fs)] =
        windowList src fs r (k + 1) := by
      rw [← hopt, windowList_shift]
    rw [hshift]
    have hstate : (lbS src (max c (k + r + 1)) (k + r + 1)) =
        lbS src (max c (min (k + 1 + r) src.length))
          (min (k + 1 + r) src.length) :=
      lbS_congr src _ _ _ _ (by omega) (by omega)
    rw [hstate]
    rw [fillLoop_spec src fs r (lbFuel (lbS src (max c (min (k + 1 + r) src.length))
        (min (k + 1 + r) src.length))) (k + 1)
      (max c (min (k + 1 + r) src.length)) Gap.None (by omega)
      (by rw [lbFuel_lbS src _ _ (by omega)]; omega)
      (by rw [lbFuel_lbS src _ _ (by omega)]; omega)]
    by_cases hwm : winHasMatch src fs r (k + 1)
    · rw [if_pos hwm, if_pos hwm]
    · rw [if_neg hwm, if_neg hwm]
      cases hj : nextMatch src fs (k + 1 + r) with
      | none =>
        simp only
        rfl
      | some j =>
        simp only
        have hjs := nextMatch_spec_some src fs _ _ hj
        have e1 : max (max c (min (k + 1 + r) src.length)) j = max c j := by
          omega
        have e2 : lbS src (max c j) j =
            lbS src (max c j) (min (j - r + r) src.length) :=
          lbS_congr src _ _ _ _ rfl (by omega)
        rw [e1, e2]
  · have hq : min (k + r) src.length = src.length := by omega
    rw [hq]
    have hnone : (src[src.length]?) = none := List.getElem?_eq_none (by omega)
    rw [hnone]
    simp only [Option.map_none',
      if_neg (show ¬ src.length < src.length by omega)]
    have hopt : optLine src fs (k + r + 1) = none :=
      optLine_eq_none_high src fs _ (by omega)
    have hshift : (windowList src fs r k).drop 1 ++ [(none : Option ContextLine)] =
        windowList src fs r (k + 1) := by
      rw [← hopt, windowList_shift]
    rw [hshift]
    have hstate : (lbS src src.length src.length) =
        lbS src (max c (min (k + 1 + r) src.length))
          (min (k + 1 + r) src.length) :=
      lbS_congr src _ _ _ _ (by omega) (by omega)
    rw [hstate]
    rw [fillLoop_spec src fs r _ (k + 1)
      (max c (min (k + 1 + r) src.length)) Gap.None (by omega)
      (by rw [lbFuel_lbS src _ _ (by omega)]; omega)
      (by rw [lbFuel_lbS src _ _ (by omega)]; omega)]
    by_cases hwm : winHasMatch src fs r (k + 1)
    · rw [if_pos hwm, if_pos hwm]
    · rw [if_neg hwm, if_neg hwm]
      have hj : nextMatch src fs (k + 1 + r) = none :=
        nextMatch_none_of_ge src fs _ (by omega)
      rw [hj]
      rfl

/-- `classify_cur_line` of the terminal state is `none`. -/
theorem classify_cbB (src : List Str) (fs : Str) (r : Nat) :
    (cbB src fs r).classify_cur_line = none := rfl

/-- `fill_buffer` on the terminal state is a no-op. -/
theorem fill_buffer_B (src : List Str) (fs : Str) (r : Nat) :
    (cbB src fs r).fill_buffer = cbB src fs r := by
  rw [ContextBuffer.fill_buffer]
  simp only [cbB]
  rw [next_lbS src src.length src.length (le_refl _)]
  rw [List.getElem?_eq_none (le_refl _)]
  simp only [Option.map_none',
    if_neg (show ¬ src.length < src.length by omega)]
  rw [show (List.drop 1 ([] : List (Option ContextLine)) ++ [none]) = [none]
    from rfl]
  have hfuel : lbFuel (lbS src src.length src.length) =
      src.length + src.length + 1 :=
    lbFuel_lbS src src.length src.length (le_refl _)
  rw [hfuel]
  have hloop : fillLoop fs (src.length + src.length + 1) [none]
      (lbS src src.length src.length) Gap.None =
      ([], lbS src src.length src.length, Gap.None) := by
    rw [fillLoop]
    rw [show ([(none : Option ContextLine)].any isMatchCL) = false from rfl]
    simp only [Bool.false_eq_true, if_false]
    rw [next_lbS src src.length src.length (le_refl _)]
    rw [List.getElem?_eq_none (le_refl _)]
    simp only [Option.map_none',
      if_neg (show ¬ src.length < src.length by omega)]
  rw [hloop]

/-- One classifier step from a live state with a clear gap flag. -/
theorem next_A_none (src : List Str) (fs : Str) (r k c : Nat)
    (hc : c ≤ src.length) :
    (cbA src fs r k c Gap.None).next =
      if winHasMatch src fs r (k + 1) then
        ((if k + 1 ≤ src.length then some (toFL src fs (k + 1)) else none),
          cbA src fs r (k + 1) (max c (min (k + 1 + r) src.length)) Gap.None)
      else
        match nextMatch src fs (k + 1 + r) with
        | some j => (some FilteredLine.Gap,
            cbA src fs r (j - r) (max c j) Gap.Previous)
        | none => (none, cbB src fs r) := by
  rw [ContextBuffer.next]
  rw [show (cbA src fs r k c Gap.None).gap = Gap.None from rfl]
  simp only
  rw [fill_buffer_A src fs r k c hc]
  by_cases hwm : winHasMatch src fs r (k + 1)
  · rw [if_pos hwm, if_pos hwm]
    rw [show (cbA src fs r (k + 1) (max c (min (k + 1 + r) src.length))
      Gap.None).gap = Gap.None from rfl]
    simp only
    rw [classify_cbA]
    by_cases hk1 : k + 1 ≤ src.length
    · rw [optLine_toFL src fs ⟨fs, r⟩ (k + 1) (by omega) hk1, if_pos hk1]
      rfl
    · rw [optLine_out_none src fs _ (k + 1) (by omega), if_neg hk1]
      rfl
  · rw [if_neg hwm, if_neg hwm]
    cases hj : nextMatch src fs (k + 1 + r) with
    | some j =>
      simp only
      rfl
    | none =>
      simp only
      rfl

/-- One classifier step from a live state right after a `Gap` was emitted. -/
theorem next_A_prev (src : List Str) (fs : Str) (r k c : Nat)
    (hk1 : 1 ≤ k) (hk2 : k ≤ src.length) :
    (cbA src fs r k c Gap.Previous).next =
      (some (toFL src fs k), cbA src fs r k c Gap.None) := by
  rw [ContextBuffer.next]
  rw [show (cbA src fs r k c Gap.Previous).gap = Gap.Previous from rfl]
  simp only
  rw [classify_cbA, optLine_toFL src fs ⟨fs, r⟩ k hk1 hk2]
  rfl

/-- One classifier step from the terminal state. -/
theorem next_B (src : List Str) (fs : Str) (r : Nat) :
    (cbB src fs r).next = (none, cbB src fs r) := by
  rw [ContextBuffer.next]
  rw [show (cbB src fs r).gap = Gap.None from rfl]
  simp only
  rw [fill_buffer_B]
  rw [show (cbB src fs r).gap = Gap.None from rfl]
  simp only
  rw [classify_cbB]
  rfl

/-- `classify_cur_line` on a predicate-free state. -/
theorem classify_cbN (src : List Str) (k c : Nat) :
    (cbN src k c).classify_cur_line =
      if 1 ≤ k ∧ k ≤ src.length then
        some (FilteredLine.UnfilteredLine (k, lineAt src k))
      else none := by
  rw [ContextBuffer.classify_cur_line]
  simp only [cbN]
  by_cases h : 1 ≤ k ∧ k ≤ src.length
  · rw [if_pos h, if_pos h]
    rfl
  · rw [if_neg h, if_neg h]
    rfl

/-- One classifier step without a predicate. -/
theorem next_cbN (src : List Str) (k c : Nat) (hc : c ≤ src.length) :
    (cbN src k c).next =
      (if k + 1 ≤ src.length then
          some (FilteredLine.UnfilteredLine (k + 1, lineAt src (k + 1)))
        else none,
        cbN src (k + 1) (max c (min (k + 1) src.length))) := by
  rw [ContextBuffer.next]
  rw [show (cbN src k c).gap = Gap.None from rfl]
  simp only
  have hfill : (cbN src k c).fill_buffer =
      cbN src (k + 1) (max c (min (k + 1) src.length)) := by
    rw [ContextBuffer.fill_buffer]
    rw [show (cbN src k c).filter_predicate = none from rfl]
    simp only
    have hdrop : (cbN src k c).buffer.drop 1 = [] := by
      simp only [cbN]
      by_cases h : 1 ≤ k ∧ k ≤ src.length
      · rw [if_pos h]
        rfl
      · rw [if_neg h]
        rfl
    rw [show (cbN src k c).iter = lbS src c (min k src.length) from rfl]
    rw [next_lbS src c (min k src.length) hc]
    by_cases hk : k < src.length
    · have hq : min k src.length = k := by omega
      rw [hq]
      obtain ⟨v, hv⟩ : ∃ v, src[k]? = some v :=
        ⟨src[k], List.getElem?_eq_getElem hk⟩
      rw [hv]
      simp only [Option.map_some', if_pos hk]
      rw [hdrop]
      have hbuf : [some (ContextLine.NoMatch (k + 1, v))] =
          (cbN src (k + 1) (max c (min (k + 1) src.length))).buffer := by
        simp only [cbN]
        rw [if_pos (by omega : 1 ≤ k + 1 ∧ k + 1 ≤ src.length)]
        have hla : lineAt src (k + 1) = v := by
          rw [lineAt]
          rw [(by omega : k + 1 - 1 = k), hv]
          rfl
        rw [hla]
      rw [show ([] : List (Option ContextLine)) ++
        [some (ContextLine.NoMatch (k + 1, v))] =
        [some (ContextLine.NoMatch (k + 1, v))] from rfl]
      rw [hbuf]
      have hst : lbS src (max c (k + 1)) (k + 1) =
          lbS src (max c (min (k + 1) src.length)) (min (k + 1) src.length) :=
        lbS_congr src _ _ _ _ (by omega) (by omega)
      rw [hst]
      rfl
    · have hq : min k src.length = src.length := by omega
      rw [hq]
      rw [List.getElem?_eq_none (le_refl _)]
      simp only [Option.map_none',
        if_neg (show ¬ src.length < src.length by omega)]
      rw [hdrop]
      have hbuf : ([] : List (Option ContextLine)) =
          (cbN src (k + 1) (max c (min (k + 1) src.length))).buffer := by
        simp only [cbN]
        rw [if_neg (by omega : ¬ (1 ≤ k + 1 ∧ k + 1 ≤ src.length))]
      have hst : lbS src src.length src.length =
          lbS src (max c (min (k + 1) src.length)) (min (k + 1) src.length) :=
        lbS_congr src _ _ _ _ (by omega) (by omega)
      rw [hst]
      rw [hbuf]
      rfl
  rw [hfill]
  rw [show (cbN src (k + 1) (max c (min (k + 1) src.length))).gap = Gap.None
    from rfl]
  simp only
  rw [classify_cbN]
  by_cases hk1 : k + 1 ≤ src.length
  · rw [if_pos (show 1 ≤ k + 1 ∧ k + 1 ≤ src.length by omega), if_pos hk1]
    rfl
  · rw [if_neg (show ¬ (1 ≤ k + 1 ∧ k + 1 ≤ src.length) by omega), if_neg hk1]
    rfl

theorem padNone_zero (l : List FilteredLine) : padNone 0 l = [] := by
  simp [padNone]

theorem padNone_cons (N : Nat) (x : FilteredLine) (l : List FilteredLine) :
    padNone (N + 1) (x :: l) = some x :: padNone N l := by
  rw [padNone, padNone]
  simp only [List.map_cons, List.take_succ_cons, List.length_cons]
  rw [(by omega : N + 1 - (l.length + 1) = N - l.length)]
  rfl

theorem padNone_nil_succ (N : Nat) :
    padNone (N + 1) ([] : List FilteredLine) =
      none :: padNone N [] := by
  simp [padNone, List.replicate_succ]

theorem padNone_nil (N : Nat) :
    padNone N ([] : List FilteredLine) = List.replicate N none := by
  simp [padNone]

theorem outSeq_succ (cb : ContextBuffer) (n : Nat) :
    cb.outSeq (n + 1) = (cb.next).1 :: (cb.next).2.outSeq n := rfl

theorem emitFrom_step (src : List Str) (fs : Str) (r k : Nat)
    (h1 : winHasMatch src fs r (k + 1)) (h2 : k + 1 ≤ src.length) :
    emitFrom src fs r k = toFL src fs (k + 1) :: emitFrom src fs r (k + 1) := by
  rw [emitFrom, if_pos h1, dif_pos h2]

theorem emitFrom_end (src : List Str) (fs : Str) (r k : Nat)
    (h1 : winHasMatch src fs r (k + 1)) (h2 : ¬ k + 1 ≤ src.length) :
    emitFrom src fs r k = [] := by
  rw [emitFrom, if_pos h1, dif_neg h2]

theorem emitFrom_skip (src : List Str) (fs : Str) (r k j : Nat)
    (h1 : ¬ winHasMatch src fs r (k + 1))
    (hj : nextMatch src fs (k + 1 + r) = some j) :
    emitFrom src fs r k =
      FilteredLine.Gap :: toFL src fs (j - r) :: emitFrom src fs r (j - r) := by
  rw [emitFrom, if_neg h1]
  split
  · rename_i j2 hj2
    rw [hj] at hj2
    cases hj2
    rfl
  · rename_i hj2
    rw [hj] at hj2
    cases hj2

theorem emitFrom_dead (src : List Str) (fs : Str) (r k : Nat)
    (h1 : ¬ winHasMatch src fs r (k + 1))
    (hj : nextMatch src fs (k + 1 + r) = none) :
    emitFrom src fs r k = [] := by
  rw [emitFrom, if_neg h1]
  split
  · rename_i j2 hj2
    rw [hj] at hj2
    cases hj2
  · rfl

theorem emitFrom_nil_of_ge (src : List Str) (fs : Str) (r k : Nat)
    (h : src.length ≤ k) : emitFrom src fs r k = [] := by
  by_cases hwm : winHasMatch src fs r (k + 1)
  · exact emitFrom_end src fs r k hwm (by omega)
  · cases hj : nextMatch src fs (k + 1 + r) with
    | some j =>
      have hjs := nextMatch_spec_some src fs _ _ hj
      omega
    | none => exact emitFrom_dead src fs r k hwm hj

/-- The master simulation: from any live or terminal state the machine
produces exactly the pure stream, padded with `none`s. -/
theorem masterAux (src : List Str) (fs : Str) (r : Nat) : ∀ N,
    (∀ k c, c ≤ src.length →
      (cbA src fs r k c Gap.None).outSeq N = padNone N (emitFrom src fs r k)) ∧
    (∀ k c, c ≤ src.length → 1 ≤ k → k ≤ src.length →
      (cbA src fs r k c Gap.Previous).outSeq N =
        padNone N (toFL src fs k :: emitFrom src fs r k)) ∧
    ((cbB src fs r).outSeq N = List.replicate N none) := by
  intro N
  induction N with
  | zero =>
    exact ⟨fun k c hc => by rw [padNone_zero]; rfl,
      fun k c hc h1 h2 => by rw [padNone_zero]; rfl, rfl⟩
  | succ N ih =>
    obtain ⟨ihA, ihP, ihB⟩ := ih
    refine ⟨?_, ?_, ?_⟩
    · intro k c hc
      rw [outSeq_succ, next_A_none src fs r k c hc]
      by_cases hwm : winHasMatch src fs r (k + 1)
      · rw [if_pos hwm]
        simp only
        by_cases hk1 : k + 1 ≤ src.length
        · rw [if_pos hk1, emitFrom_step src fs r k hwm hk1, padNone_cons]
          rw [ihA (k + 1) _ (by omega)]
        · rw [if_neg hk1, emitFrom_end src fs r k hwm hk1, padNone_nil_succ]
          rw [ihA (k + 1) _ (by omega)]
          rw [emitFrom_nil_of_ge src fs r (k + 1) (by omega)]
      · rw [if_neg hwm]
        cases hj : nextMatch src fs (k + 1 + r) with
        | some j =>
          simp only
          have hjs := nextMatch_spec_some src fs _ _ hj
          rw [emitFrom_skip src fs r k j hwm hj, padNone_cons]
          rw [ihP (j - r) _ (by omega) (by omega) (by omega)]
        | none =>
          simp only
          rw [emitFrom_dead src fs r k hwm hj, ihB, padNone_nil_succ,
            padNone_nil]
    · intro k c hc hk1 hk2
      rw [outSeq_succ, next_A_prev src fs r k c hk1 hk2]
      simp only
      rw [padNone_cons, ihA k c hc]
    · rw [outSeq_succ, next_B]
      simp only
      rw [ihB]
      rfl

theorem lbS_zero (src : List Str) : LineBuffer.new src = lbS src 0 0 := rfl

/-- The full no-predicate run: every line as `Unfiltered`, then `none`s. -/
theorem outSeq_cbN (src : List Str) : ∀ N k c, c ≤ src.length →
    (cbN src k c).outSeq N =
      ((numberFrom (k + 1) (src.drop k)).map (fun nl =>
        some (FilteredLine.UnfilteredLine nl))).take N ++
      List.replicate (N - (src.length - k)) none := by
  intro N
  induction N with
  | zero =>
    intro k c hc
    rw [show (cbN src k c).outSeq 0 = [] from rfl]
    simp
  | succ N ih =>
    intro k c hc
    rw [outSeq_succ, next_cbN src k c hc]
    simp only
    by_cases hk1 : k + 1 ≤ src.length
    · rw [if_pos hk1, ih (k + 1) _ (by omega)]
      have hd : src.drop k = src[k] :: src.drop (k + 1) :=
        List.drop_eq_getElem_cons (by omega)
      rw [hd]
      rw [show numberFrom (k + 1) (src[k] :: src.drop (k + 1)) =
        (k + 1, src[k]) :: numberFrom (k + 1 + 1) (src.drop (k + 1)) from rfl]
      simp only [List.map_cons, List.take_succ_cons]
      have hla : lineAt src (k + 1) = src[k] := by
        rw [lineAt, (by omega : k + 1 - 1 = k),
          List.getElem?_eq_getElem (show k < src.length by omega)]
        rfl
      rw [hla]
      rw [show N + 1 - (src.length - k) = N - (src.length - (k + 1)) from
        by omega]
      rfl
    · rw [if_neg hk1]
      rw [ih (k + 1) _ (by omega)]
      have hd : src.drop k = [] := List.drop_eq_nil_of_le (by omega)
      have hd1 : src.drop (k + 1) = [] := List.drop_eq_nil_of_le (by omega)
      rw [hd, hd1]
      simp only [numberFrom, List.map_nil, List.take_nil, List.nil_append]
      rw [show N + 1 - (src.length - k) = N + 1 from by omega,
        show N - (src.length - (k + 1)) = N from by omega]
      rfl

theorem emitFrom_length_le (src : List Str) (fs : Str) (r : Nat) :
    ∀ d k, src.length - k ≤ d →
    (emitFrom src fs r k).length ≤ 2 * (src.length - k) := by
  intro d
  induction d with
  | zero =>
    intro k h
    rw [emitFrom_nil_of_ge src fs r k (by omega)]
    simp
  | succ d ih =>
    intro k h
    by_cases hk : src.length ≤ k
    · rw [emitFrom_nil_of_ge src fs r k hk]
      simp
    · by_cases hwm : winHasMatch src fs r (k + 1)
      · have hk1 : k + 1 ≤ src.length := by omega
        rw [emitFrom_step src fs r k hwm hk1]
        have hih := ih (k + 1) (by omega)
        simp only [List.length_cons]
        omega
      · cases hj : nextMatch src fs (k + 1 + r) with
        | some j =>
          rw [emitFrom_skip src fs r k j hwm hj]
          have hjs := nextMatch_spec_some src fs _ _ hj
          have hih := ih (j - r) (by omega)
          simp only [List.length_cons]
          omega
        | none =>
          rw [emitFrom_dead src fs r k hwm hj]
          simp

theorem filterMap_id_map_some (l : List FilteredLine) :
    (l.map some).filterMap id = l := by
  induction l with
  | nil => rfl
  | cons x l ih => simp [ih]

theorem filterMap_id_replicate_none (m : Nat) :
    (List.replicate m (none : Option FilteredLine)).filterMap id = [] := by
  induction m with
  | zero => rfl
  | succ m ih => simp [List.replicate_succ, ih]

/-- The complete classified stream of a predicate run is the pure stream. -/
theorem classifierOut_eq (src : List Str) (fs : Str) (r : Nat) :
    classifierOut src ⟨fs, r⟩ = emitFrom src fs r 0 := by
  rw [classifierOut, lbS_zero, new_some_lbS src fs r 0 (by omega)]
  rw [show max 0 (min r src.length) = min r src.length from by omega]
  rw [(masterAux src fs r (2 * src.length + 1)).1 0 (min r src.length)
    (by omega)]
  rw [padNone]
  have hlen : (emitFrom src fs r 0).length ≤ 2 * src.length := by
    have h := emitFrom_length_le src fs r src.length 0 (by omega)
    omega
  rw [List.take_of_length_le (by rw [List.length_map]; omega)]
  rw [List.filterMap_append, filterMap_id_map_some, filterMap_id_replicate_none,
    List.append_nil]

theorem lineMatches_bounds (src : List Str) (fs : Str) (i : Nat)
    (h : lineMatches src fs i = true) : 1 ≤ i ∧ i ≤ src.length := by
  constructor
  · by_contra hcon
    rw [lineMatches_low src fs i (by omega)] at h
    exact absurd h (by simp)
  · by_contra hcon
    rw [lineMatches_high src fs i (by omega)] at h
    exact absurd h (by simp)

theorem toFL_match (src : List Str) (fs : Str) (i : Nat)
    (h : lineMatches src fs i = true) :
    toFL src fs i = FilteredLine.MatchLine (i, lineAt src i) := by
  rw [toFL, if_pos h]

theorem toFL_ctx (src : List Str) (fs : Str) (i : Nat)
    (h : lineMatches src fs i = false) :
    toFL src fs i = FilteredLine.ContextLine (i, lineAt src i) := by
  rw [toFL, if_neg (by simp [h])]

theorem toFL_shape (src : List Str) (fs : Str) (i : Nat) :
    toFL src fs i = FilteredLine.ContextLine (i, lineAt src i) ∨
    toFL src fs i = FilteredLine.MatchLine (i, lineAt src i) := by
  rw [toFL]
  by_cases h : lineMatches src fs i
  · right
    rw [if_pos h]
  · left
    rw [if_neg h]

theorem toFL_ne_gap (src : List Str) (fs : Str) (i : Nat) :
    toFL src fs i ≠ FilteredLine.Gap := by
  rcases toFL_shape src fs i with h | h <;> rw [h] <;> intro hcon <;> cases hcon

/-- Every `Gap` in the pure stream is immediately followed by a `Context`
or `Match` element. -/
theorem emitFrom_gap_good (src : List Str) (fs : Str) (r : Nat) :
    ∀ d k, src.length - k ≤ d → ∀ i,
    (emitFrom src fs r k)[i]? = some FilteredLine.Gap →
    ∃ nl, (emitFrom src fs r k)[i+1]? = some (FilteredLine.ContextLine nl) ∨
      (emitFrom src fs r k)[i+1]? = some (FilteredLine.MatchLine nl) := by
  intro d
  induction d with
  | zero =>
    intro k hd i hi
    rw [emitFrom_nil_of_ge src fs r k (by omega)] at hi
    simp at hi
  | succ d ih =>
    intro k hd i hi
    by_cases hk : src.length ≤ k
    · rw [emitFrom_nil_of_ge src fs r k hk] at hi
      simp at hi
    · by_cases hwm : winHasMatch src fs r (k + 1)
      · have hk1 : k + 1 ≤ src.length := by omega
        rw [emitFrom_step src fs r k hwm hk1] at hi
        rw [emitFrom_step src fs r k hwm hk1]
        cases i with
        | zero =>
          simp only [List.getElem?_cons_zero] at hi
          exact absurd (Option.some.inj hi) (toFL_ne_gap src fs (k + 1))
        | succ i =>
          simp only [List.getElem?_cons_succ] at hi
          simp only [List.getElem?_cons_succ]
          exact ih (k + 1) (by omega) i hi
      · cases hj : nextMatch src fs (k + 1 + r) with
        | some j =>
          have hjs := nextMatch_spec_some src fs _ _ hj
          rw [emitFrom_skip src fs r k j hwm hj] at hi
          rw [emitFrom_skip src fs r k j hwm hj]
          cases i with
          | zero =>
            simp only [List.getElem?_cons_succ, List.getElem?_cons_zero]
            rcases toFL_shape src fs (j - r) with h | h
            · exact ⟨(j - r, lineAt src (j - r)), Or.inl (by rw [h])⟩
            · exact ⟨(j - r, lineAt src (j - r)), Or.inr (by rw [h])⟩
          | succ i =>
            simp only [List.getElem?_cons_succ] at hi
            simp only [List.getElem?_cons_succ]
            cases i with
            | zero =>
              simp only [List.getElem?_cons_zero] at hi
              exact absurd (Option.some.inj hi) (toFL_ne_gap src fs (j - r))
            | succ i =>
              simp only [List.getElem?_cons_succ] at hi
              exact ih (j - r) (by omega) i hi
        | none =>
          rw [emitFrom_dead src fs r k hwm hj] at hi
          simp at hi

/-- Every numbered element of the pure stream from `k` has number above
`k`. -/
theorem emitFrom_num_gt (src : List Str) (fs : Str) (r : Nat) :
    ∀ d k, src.length - k ≤ d → ∀ x ∈ emitFrom src fs r k,
    x = FilteredLine.Gap ∨ ∃ nl, (x = FilteredLine.ContextLine nl ∨
      x = FilteredLine.MatchLine nl) ∧ k < nl.1 := by
  intro d
  induction d with
  | zero =>
    intro k hd x hx
    rw [emitFrom_nil_of_ge src fs r k (by omega)] at hx
    simp at hx
  | succ d ih =>
    intro k hd x hx
    by_cases hk : src.length ≤ k
    · rw [emitFrom_nil_of_ge src fs r k hk] at hx
      simp at hx
    · by_cases hwm : winHasMatch src fs r (k + 1)
      · have hk1 : k + 1 ≤ src.length := by omega
        rw [emitFrom_step src fs r k hwm hk1] at hx
        rcases List.mem_cons.mp hx with hx | hx
        · subst hx
          rcases toFL_shape src fs (k + 1) with h | h
          · exact Or.inr ⟨(k + 1, lineAt src (k + 1)), Or.inl h, by omega⟩
          · exact Or.inr ⟨(k + 1, lineAt src (k + 1)), Or.inr h, by omega⟩
        · rcases ih (k + 1) (by omega) x hx with h | ⟨nl, hnl, hgt⟩
          · exact Or.inl h
          · exact Or.inr ⟨nl, hnl, by omega⟩
      · cases hj : nextMatch src fs (k + 1 + r) with
        | some j =>
          have hjs := nextMatch_spec_some src fs _ _ hj
          rw [emitFrom_skip src fs r k j hwm hj] at hx
          rcases List.mem_cons.mp hx with hx | hx
          · exact Or.inl hx
          · rcases List.mem_cons.mp hx with hx | hx
            · subst hx
              rcases toFL_shape src fs (j - r) with h | h
              · exact Or.inr ⟨(j - r, lineAt src (j - r)), Or.inl h, by omega⟩
              · exact Or.inr ⟨(j - r, lineAt src (j - r)), Or.inr h, by omega⟩
            · rcases ih (j - r) (by omega) x hx with h | ⟨nl, hnl, hgt⟩
              · exact Or.inl h
              · exact Or.inr ⟨nl, hnl, by omega⟩
        | none =>
          rw [emitFrom_dead src fs r k hwm hj] at hx
          simp at hx

/-- The pure stream from below a match `m` reaches `MatchLine m`, and
everything before it is a `Gap` or carries a number below `m`. -/
theorem emitFrom_reaches (src : List Str) (fs : Str) (r : Nat) :
    ∀ d k m, src.length - k ≤ d → k < m → lineMatches src fs m = true →
    ∃ P, emitFrom src fs r k =
        P ++ FilteredLine.MatchLine (m, lineAt src m) :: emitFrom src fs r m ∧
      ∀ x ∈ P, x = FilteredLine.Gap ∨ ∃ nl, (x = FilteredLine.ContextLine nl ∨
        x = FilteredLine.MatchLine nl) ∧ nl.1 < m := by
  intro d
  induction d with
  | zero =>
    intro k m hd hkm hm
    have hb := lineMatches_bounds src fs m hm
    omega
  | succ d ih =>
    intro k m hd hkm hm
    have hb := lineMatches_bounds src fs m hm
    by_cases hwm : winHasMatch src fs r (k + 1)
    · have hk1 : k + 1 ≤ src.length := by omega
      rw [emitFrom_step src fs r k hwm hk1]
      by_cases hkm1 : k + 1 = m
      · refine ⟨[], ?_, by simp⟩
        subst hkm1
        rw [toFL_match src fs (k + 1) hm]
        rfl
      · obtain ⟨P, hP, hPlt⟩ := ih (k + 1) m (by omega) (by omega) hm
        refine ⟨toFL src fs (k + 1) :: P, ?_, ?_⟩
        · rw [hP]
          rfl
        · intro x hx
          rcases List.mem_cons.mp hx with hx | hx
          · subst hx
            rcases toFL_shape src fs (k + 1) with h | h
            · exact Or.inr ⟨(k + 1, lineAt src (k + 1)), Or.inl h, by omega⟩
            · exact Or.inr ⟨(k + 1, lineAt src (k + 1)), Or.inr h, by omega⟩
          · exact hPlt x hx
    · have hmbig : k + 1 + r < m := by
        by_contra hcon
        apply hwm
        rw [winHasMatch_iff]
        exact ⟨m, by omega, by omega, by omega, by omega, hm⟩
      cases hj : nextMatch src fs (k + 1 + r) with
      | some j =>
        have hjs := nextMatch_spec_some src fs _ _ hj
        have hjm : j ≤ m := by
          by_contra hcon
          have := hjs.2.2.2 m (by omega) (by omega)
          rw [hm] at this
          exact absurd this (by simp)
        rw [emitFrom_skip src fs r k j hwm hj]
        by_cases hjr : j - r = m
        · refine ⟨[FilteredLine.Gap], ?_, ?_⟩
          · rw [hjr, toFL_match src fs m hm]
            rfl
          · intro x hx
            simp at hx
            subst hx
            exact Or.inl rfl
        · obtain ⟨P, hP, hPlt⟩ := ih (j - r) m (by omega) (by omega) hm
          refine ⟨FilteredLine.Gap :: toFL src fs (j - r) :: P, ?_, ?_⟩
          · rw [hP]
            rfl
          · intro x hx
            rcases List.mem_cons.mp hx with hx | hx
            · exact Or.inl hx
            · rcases List.mem_cons.mp hx with hx | hx
              · subst hx
                rcases toFL_shape src fs (j - r) with h | h
                · exact Or.inr ⟨(j - r, lineAt src (j - r)), Or.inl h, by omega⟩
                · exact Or.inr ⟨(j - r, lineAt src (j - r)), Or.inr h, by omega⟩
              · exact hPlt x hx
      | none =>
        have := nextMatch_spec_none src fs _ hj m (by omega) (by omega)
        rw [hm] at this
        exact absurd this (by simp)

theorem ctxList_zero (src : List Str) (a : Nat) : ctxList src a 0 = [] := rfl

theorem ctxList_cons (src : List Str) (a len : Nat) :
    ctxList src a (len + 1) =
      FilteredLine.ContextLine (a, lineAt src a) :: ctxList src (a + 1) len := by
  rw [ctxList, ctxList, List.range'_succ]
  rfl

/-- The run of context lines between a gap and the next match `m'`. -/
theorem emitFrom_run2 (src : List Str) (fs : Str) (r m m' : Nat)
    (hm' : lineMatches src fs m' = true)
    (hbet : ∀ x, m < x → x < m' → lineMatches src fs x = false) :
    ∀ d k, m' - 1 - k ≤ d → m ≤ k → m' - r ≤ k + 1 → k < m' →
    emitFrom src fs r k =
      ctxList src (k + 1) (m' - 1 - k) ++
        FilteredLine.MatchLine (m', lineAt src m') :: emitFrom src fs r m' := by
  have hb' := lineMatches_bounds src fs m' hm'
  intro d
  induction d with
  | zero =>
    intro k hd h1 h2 h3
    have hke : k + 1 = m' := by omega
    have hwm : winHasMatch src fs r (k + 1) = true := by
      rw [winHasMatch_iff]
      exact ⟨m', by omega, by omega, by omega, by omega, hm'⟩
    rw [emitFrom_step src fs r k hwm (by omega)]
    rw [show m' - 1 - k = 0 from by omega, ctxList_zero, List.nil_append,
      hke, toFL_match src fs m' hm']
  | succ d ih =>
    intro k hd h1 h2 h3
    have hwm : winHasMatch src fs r (k + 1) = true := by
      rw [winHasMatch_iff]
      exact ⟨m', by omega, by omega, by omega, by omega, hm'⟩
    rw [emitFrom_step src fs r k hwm (by omega)]
    by_cases hke : k + 1 = m'
    · rw [show m' - 1 - k = 0 from by omega, ctxList_zero, List.nil_append,
        hke, toFL_match src fs m' hm']
    · have htf : toFL src fs (k + 1) =
          FilteredLine.ContextLine (k + 1, lineAt src (k + 1)) :=
        toFL_ctx src fs (k + 1) (hbet (k + 1) (by omega) (by omega))
      rw [htf, ih (k + 1) (by omega) (by omega) (by omega) (by omega)]
      rw [show m' - 1 - k = (m' - 1 - (k + 1)) + 1 from by omega, ctxList_cons]
      rfl

/-- The gap step at the end of a match group: from current position
`m + r` the stream emits the gap, the leading contexts of the next group,
and the next match. -/
theorem emitFrom_seg_base (src : List Str) (fs : Str) (r m m' : Nat)
    (hm : lineMatches src fs m = true) (hm' : lineMatches src fs m' = true)
    (hbet : ∀ x, m < x → x < m' → lineMatches src fs x = false)
    (hdist : 2 * r + 1 < m' - m) :
    emitFrom src fs r (m + r) =
      FilteredLine.Gap :: (ctxList src (m' - r) r ++
        FilteredLine.MatchLine (m', lineAt src m') :: emitFrom src fs r m') := by
  have hb := lineMatches_bounds src fs m hm
  have hb' := lineMatches_bounds src fs m' hm'
  have hwm : winHasMatch src fs r (m + r + 1) = false := by
    by_contra hcon
    have hcon2 : winHasMatch src fs r (m + r + 1) = true := by
      revert hcon
      cases winHasMatch src fs r (m + r + 1) <;> simp
    rw [winHasMatch_iff] at hcon2
    obtain ⟨x, hx1, hx2, hx3, hx4, hx5⟩ := hcon2
    have hxm : m < x := by omega
    have hxm' : x < m' := by omega
    rw [hbet x hxm hxm'] at hx5
    exact absurd hx5 (by simp)
  have hnm : nextMatch src fs (m + r + 1 + r) = some m' := by
    apply nextMatch_eq_some_of src fs _ m' (by omega) (by omega) hm'
    intro x hx1 hx2
    exact hbet x (by omega) hx2
  rw [emitFrom_skip src fs r (m + r) m' (by simp [hwm]) hnm]
  by_cases hr : r = 0
  · subst hr
    rw [show m' - 0 = m' from by omega, toFL_match src fs m' hm']
    rw [ctxList_zero]
    rfl
  · have htf : toFL src fs (m' - r) =
        FilteredLine.ContextLine (m' - r, lineAt src (m' - r)) :=
      toFL_ctx src fs (m' - r) (hbet (m' - r) (by omega) (by omega))
    rw [htf]
    rw [emitFrom_run2 src fs r m m' hm' hbet (m' - 1 - (m' - r)) (m' - r)
      (le_refl _) (by omega) (by omega) (by omega)]
    rw [show m' - 1 - (m' - r) = (r - 1) from by omega]
    rw [show r = (r - 1) + 1 from by omega, ctxList_cons]
    rw [show m' - ((r - 1) + 1) = m' - r from by omega,
      show m' - r + 1 = m' - (r - 1) from by omega]
    rfl

/-- The central segment between two consecutive distant matches: contexts,
exactly one gap, contexts, then the next match. -/
theorem emitFrom_seg (src : List Str) (fs : Str) (r m m' : Nat)
    (hm : lineMatches src fs m = true) (hm' : lineMatches src fs m' = true)
    (hbet : ∀ x, m < x → x < m' → lineMatches src fs x = false)
    (hdist : 2 * r + 1 < m' - m) :
    ∀ d i, r - i ≤ d → i ≤ r →
    emitFrom src fs r (m + i) =
      ctxList src (m + i + 1) (r - i) ++
        FilteredLine.Gap :: (ctxList src (m' - r) r ++
          FilteredLine.MatchLine (m', lineAt src m') :: emitFrom src fs r m') := by
  have hb := lineMatches_bounds src fs m hm
  have hb' := lineMatches_bounds src fs m' hm'
  intro d
  induction d with
  | zero =>
    intro i hd hir
    have hie : i = r := by omega
    rw [hie]
    rw [show r - r = 0 from by omega, ctxList_zero, List.nil_append]
    exact emitFrom_seg_base src fs r m m' hm hm' hbet hdist
  | succ d ih =>
    intro i hd hir
    by_cases hie : i = r
    · rw [hie]
      rw [show r - r = 0 from by omega, ctxList_zero, List.nil_append]
      exact emitFrom_seg_base src fs r m m' hm hm' hbet hdist
    · have hwm : winHasMatch src fs r (m + i + 1) = true := by
        rw [winHasMatch_iff]
        exact ⟨m, by omega, by omega, by omega, by omega, hm⟩
      rw [emitFrom_step src fs r (m + i) hwm (by omega)]
      have htf : toFL src fs (m + i + 1) =
          FilteredLine.ContextLine (m + i + 1, lineAt src (m + i + 1)) :=
        toFL_ctx src fs (m + i + 1) (hbet (m + i + 1) (by omega) (by omega))
      rw [htf]
      rw [show m + i + 1 = m + (i + 1) from by omega]
      rw [ih (i + 1) (by omega) (by omega)]
      rw [show r - i = (r - (i + 1)) + 1 from by omega, ctxList_cons]
      rw [show m + (i + 1) = m + i + 1 from by omega]
      rw [show m + i + 1 + 1 = m + (i + 1) + 1 from by omega]
      rfl

theorem lineMatches_succ_getElem (src : List Str) (fs : Str) (k : Nat)
    (h : k < src.length) :
    lineMatches src fs (k + 1) = strContains src[k] fs := by
  rw [lineMatches, if_neg (by omega), (by omega : k + 1 - 1 = k),
    List.getElem?_eq_getElem h]

theorem lineAt_succ_getElem (src : List Str) (k : Nat) (h : k < src.length) :
    lineAt src (k + 1) = src[k] := by
  rw [lineAt, (by omega : k + 1 - 1 = k), List.getElem?_eq_getElem h]
  rfl

theorem winHasMatch_r0 (src : List Str) (fs : Str) (k : Nat) :
    winHasMatch src fs 0 k = lineMatches src fs k := by
  cases hl : lineMatches src fs k
  · by_contra hcon
    have hcon2 : winHasMatch src fs 0 k = true := by
      revert hcon
      cases winHasMatch src fs 0 k <;> simp
    rw [winHasMatch_iff] at hcon2
    obtain ⟨x, hx1, hx2, hx3, hx4, hx5⟩ := hcon2
    have hxe : x = k := by omega
    subst hxe
    rw [hl] at hx5
    exact absurd hx5 (by simp)
  · have hb := lineMatches_bounds src fs k hl
    exact (winHasMatch_iff src fs 0 k).mpr
      ⟨k, by omega, by omega, by omega, by omega, hl⟩

theorem matchedFrom_ge (src : List Str) (fs : Str) (k : Nat)
    (h : src.length ≤ k) : matchedFrom src fs k = [] := by
  rw [matchedFrom, List.drop_eq_nil_of_le h]
  rfl

theorem matchedFrom_cons_match (src : List Str) (fs : Str) (k : Nat)
    (h : k < src.length) (hm : lineMatches src fs (k + 1) = true) :
    matchedFrom src fs k =
      FilteredLine.MatchLine (k + 1, lineAt src (k + 1)) ::
        matchedFrom src fs (k + 1) := by
  rw [matchedFrom, matchedFrom, List.drop_eq_getElem_cons h]
  rw [show numberFrom (k + 1) (src[k] :: src.drop (k + 1)) =
    (k + 1, src[k]) :: numberFrom (k + 1 + 1) (src.drop (k + 1)) from rfl]
  rw [List.filter_cons]
  rw [lineMatches_succ_getElem src fs k h] at hm
  rw [if_pos (by exact hm)]
  rw [List.map_cons, lineAt_succ_getElem src k h]

theorem matchedFrom_cons_skip (src : List Str) (fs : Str) (k : Nat)
    (h : k < src.length) (hm : lineMatches src fs (k + 1) = false) :
    matchedFrom src fs k = matchedFrom src fs (k + 1) := by
  rw [matchedFrom, matchedFrom, List.drop_eq_getElem_cons h]
  rw [show numberFrom (k + 1) (src[k] :: src.drop (k + 1)) =
    (k + 1, src[k]) :: numberFrom (k + 1 + 1) (src.drop (k + 1)) from rfl]
  rw [List.filter_cons]
  rw [lineMatches_succ_getElem src fs k h] at hm
  rw [if_neg (by simp [hm])]

theorem matchedFrom_skip_to (src : List Str) (fs : Str) :
    ∀ e a b, b - a ≤ e → a ≤ b → b ≤ src.length →
    (∀ x, a < x → x ≤ b → lineMatches src fs x = false) →
    matchedFrom src fs a = matchedFrom src fs b := by
  intro e
  induction e with
  | zero =>
    intro a b hd h1 h2 h3
    rw [show a = b from by omega]
  | succ e ih =>
    intro a b hd h1 h2 h3
    by_cases hab : a = b
    · rw [hab]
    · rw [matchedFrom_cons_skip src fs a (by omega)
        (h3 (a + 1) (by omega) (by omega))]
      exact ih (a + 1) b (by omega) (by omega) h2
        (fun x hx1 hx2 => h3 x (by omega) hx2)

/-- With radius `0`, the stream with `Gap`s removed is exactly the matching
lines after `k`. -/
theorem emitFrom_r0 (src : List Str) (fs : Str) :
    ∀ d k, src.length - k ≤ d →
    (emitFrom src fs 0 k).filter (fun l => !(l == FilteredLine.Gap)) =
      matchedFrom src fs k := by
  intro d
  induction d with
  | zero =>
    intro k hd
    rw [emitFrom_nil_of_ge src fs 0 k (by omega),
      matchedFrom_ge src fs k (by omega)]
    rfl
  | succ d ih =>
    intro k hd
    by_cases hk : src.length ≤ k
    · rw [emitFrom_nil_of_ge src fs 0 k hk, matchedFrom_ge src fs k hk]
      rfl
    · cases hl : lineMatches src fs (k + 1)
      · have hwm : winHasMatch src fs 0 (k + 1) = false := by
          rw [winHasMatch_r0, hl]
        cases hj : nextMatch src fs (k + 1 + 0) with
        | some j =>
          have hjs := nextMatch_spec_some src fs _ _ hj
          rw [emitFrom_skip src fs 0 k j (by simp [hwm]) hj]
          rw [show j - 0 = j from by omega]
          rw [List.filter_cons, List.filter_cons]
          rw [if_neg (by simp)]
          rw [toFL_match src fs j hjs.2.2.1]
          rw [if_pos (by simp)]
          rw [ih j (by omega)]
          have hskip : matchedFrom src fs k = matchedFrom src fs (j - 1) := by
            apply matchedFrom_skip_to src fs (j - 1 - k) k (j - 1) (le_refl _)
              (by omega) (by omega)
            intro x hx1 hx2
            by_cases hx : x = k + 1
            · rw [hx]
              exact hl
            · exact hjs.2.2.2 x (by omega) (by omega)
          rw [hskip]
          rw [matchedFrom_cons_match src fs (j - 1) (by omega)
            (by rw [(by omega : j - 1 + 1 = j)]; exact hjs.2.2.1)]
          rw [(by omega : j - 1 + 1 = j)]
        | none =>
          rw [emitFrom_dead src fs 0 k (by simp [hwm]) hj]
          have hskip : matchedFrom src fs k = matchedFrom src fs src.length := by
            apply matchedFrom_skip_to src fs (src.length - k) k src.length
              (le_refl _) (by omega) (le_refl _)
            intro x hx1 hx2
            by_cases hx : x = k + 1
            · rw [hx]
              exact hl
            · exact nextMatch_spec_none src fs _ hj x (by omega) hx2
          rw [hskip, matchedFrom_ge src fs src.length (le_refl _)]
          rfl
      · have hwm : winHasMatch src fs 0 (k + 1) = true := by
          rw [winHasMatch_r0, hl]
        rw [emitFrom_step src fs 0 k hwm (by omega)]
        rw [List.filter_cons, toFL_match src fs (k + 1) hl, if_pos (by simp)]
        rw [ih (k + 1) (by omega)]
        rw [← matchedFrom_cons_match src fs k (by omega) hl]

/-- Under the empty filter string every line matches, so the stream is all
the lines as matches. -/
theorem emitFrom_empty_fs (src : List Str) (r : Nat) :
    ∀ d k, src.length - k ≤ d →
    emitFrom src [] r k =
      (numberFrom (k + 1) (src.drop k)).map FilteredLine.MatchLine := by
  intro d
  induction d with
  | zero =>
    intro k hd
    rw [emitFrom_nil_of_ge src [] r k (by omega),
      List.drop_eq_nil_of_le (by omega)]
    rfl
  | succ d ih =>
    intro k hd
    by_cases hk : src.length ≤ k
    · rw [emitFrom_nil_of_ge src [] r k hk, List.drop_eq_nil_of_le hk]
      rfl
    · have hl : lineMatches src [] (k + 1) = true := by
        rw [lineMatches_succ_getElem src [] k (by omega), strContains_nil]
      have hwm : winHasMatch src [] r (k + 1) = true := by
        rw [winHasMatch_iff]
        exact ⟨k + 1, by omega, by omega, by omega, by omega, hl⟩
      rw [emitFrom_step src [] r k hwm (by omega)]
      rw [toFL_match src [] (k + 1) hl]
      rw [ih (k + 1) (by omega)]
      rw [List.drop_eq_getElem_cons (show k < src.length by omega)]
      rw [show numberFrom (k + 1) (src[k] :: src.drop (k + 1)) =
        (k + 1, src[k]) :: numberFrom (k + 1 + 1) (src.drop (k + 1)) from rfl]
      rw [List.map_cons, lineAt_succ_getElem src k (by omega)]

/-!
## Window buffer lemmas
-/

theorem LBSynced_next (src : List Str) (lb : LineBuffer)
    (h : LBSynced src lb) : LBSynced src (lb.next).2 := by
  obtain ⟨c, q, hc, hq, rfl⟩ := h
  rw [next_lbS src c q hc]
  by_cases hqn : q < src.length
  · rw [if_pos hqn]
    exact ⟨max c (q + 1), q + 1, by omega, by omega, rfl⟩
  · rw [if_neg hqn]
    exact ⟨src.length, q, le_refl _, hq, rfl⟩

theorem LBSynced_nextN (src : List Str) (m : Nat) : ∀ lb, LBSynced src lb →
    LBSynced src (lb.nextN m).2 := by
  induction m with
  | zero =>
    intro lb h
    exact h
  | succ m ih =>
    intro lb h
    rw [LineBuffer.nextN]
    cases hn : lb.next with
    | mk o lb2 =>
      cases o with
      | some nl =>
        simp only
        have h2 : LBSynced src lb2 := by
          have := LBSynced_next src lb h
          rw [hn] at this
          exact this
        have h3 := ih lb2 h2
        cases hnn : lb2.nextN m with
        | mk rest lb3 =>
          rw [hnn] at h3
          exact h3
      | none =>
        have h2 := LBSynced_next src lb h
        rw [hn] at h2
        exact h2

theorem LBSynced_fillLoop (src : List Str) (fs : Str) (fuel : Nat) :
    ∀ buf lb g, LBSynced src lb →
    LBSynced src (fillLoop fs fuel buf lb g).2.1 := by
  induction fuel with
  | zero =>
    intro buf lb g h
    exact h
  | succ fuel ih =>
    intro buf lb g h
    rw [fillLoop]
    by_cases hm : buf.any isMatchCL
    · rw [if_pos hm]
      exact h
    · rw [if_neg hm]
      cases hn : lb.next with
      | mk o lb2 =>
        have h2 : LBSynced src lb2 := by
          have := LBSynced_next src lb h
          rw [hn] at this
          exact this
        cases o with
        | some nl =>
          simp only
          exact ih _ lb2 _ h2
        | none =>
          exact h2

theorem LBSynced_cb_next (src : List Str) (cb : ContextBuffer)
    (h : LBSynced src cb.iter) : LBSynced src ((cb.next).2).iter := by
  rw [ContextBuffer.next]
  cases hgap : cb.gap
  · exact h
  · exact h
  · rw [ContextBuffer.fill_buffer]
    cases hp : cb.filter_predicate with
    | some fp =>
      simp only
      have h1 : LBSynced src (cb.iter.next).2 := LBSynced_next src cb.iter h
      have h2 := LBSynced_fillLoop src fp.filter_string
        (lbFuel (cb.iter.next).2) (cb.buffer.drop 1 ++
          [(cb.iter.next).1.map (fun nl =>
            ContextLine.from_numbered_line nl fp.filter_string)])
        (cb.iter.next).2 cb.gap h1
      cases hg : (fillLoop fp.filter_string (lbFuel (cb.iter.next).2)
        (cb.buffer.drop 1 ++ [(cb.iter.next).1.map (fun nl =>
          ContextLine.from_numbered_line nl fp.filter_string)])
        (cb.iter.next).2 cb.gap).2.2 <;>
      · simp only
        exact h2
    | none =>
      simp only
      cases hn : cb.iter.next with
      | mk o lb2 =>
        have h2 : LBSynced src lb2 := by
          have := LBSynced_next src cb.iter h
          rw [hn] at this
          exact this
        cases o with
        | some nl =>
          rw [hgap]
          exact h2
        | none =>
          rw [hgap]
          exact h2

theorem LBSynced_takeSome (src : List Str) (n : Nat) : ∀ cb : ContextBuffer,
    LBSynced src cb.iter → LBSynced src ((cb.takeSome n).2).iter := by
  induction n with
  | zero =>
    intro cb h
    exact h
  | succ n ih =>
    intro cb h
    rw [ContextBuffer.takeSome]
    cases hn : cb.next with
    | mk o cb2 =>
      have h2 : LBSynced src cb2.iter := by
        have := LBSynced_cb_next src cb h
        rw [hn] at this
        exact this
      cases o with
      | some x =>
        simp only
        have h3 := ih cb2 h2
        cases hnn : cb2.takeSome n with
        | mk rest cb3 =>
          rw [hnn] at h3
          exact h3
      | none =>
        exact h2

theorem LBSynced_cb_new (src : List Str) (p : Option FilterPredicate)
    (lb : LineBuffer) (h : LBSynced src lb) :
    LBSynced src (ContextBuffer.new p lb).iter := by
  cases p with
  | none => exact h
  | some fp =>
    rw [ContextBuffer.new]
    simp only
    have h2 := LBSynced_nextN src fp.context_lines lb h
    cases hn : lb.nextN fp.context_lines with
    | mk pulled lb2 =>
      rw [hn] at h2
      exact h2

theorem WBSynced_new (src : List Str) (p : Option FilterPredicate)
    (w h : Nat) : WBSynced src (WindowBuffer.new src p w h) := by
  rw [WindowBuffer.new, WBSynced]
  exact LBSynced_cb_new src p (LineBuffer.new src)
    ⟨0, 0, by omega, by omega, rfl⟩

theorem WBSynced_fill_buffer (src : List Str) (wb : WindowBuffer)
    (limit : Nat) (h : WBSynced src wb) :
    WBSynced src (wb.fill_buffer limit) := by
  rw [WindowBuffer.fill_buffer]
  by_cases hlt : wb.buffered_lines.length < limit
  · rw [if_pos hlt]
    have h2 := LBSynced_takeSome src (limit - wb.buffered_lines.length)
      wb.context_buffer h
    cases hn : wb.context_buffer.takeSome (limit - wb.buffered_lines.length)
      with
    | mk new cb2 =>
      rw [hn] at h2
      exact h2
  · rw [if_neg hlt]
    exact h

theorem WBSynced_get_lines (src : List Str) (wb : WindowBuffer)
    (start num : Nat) (h : WBSynced src wb) :
    WBSynced src (wb.get_lines start num).2 := by
  rw [WindowBuffer.get_lines]
  by_cases hs : start < 1
  · rw [if_pos hs]
    exact h
  · rw [if_neg hs]
    exact WBSynced_fill_buffer src wb _ h

theorem WBSynced_next_line (src : List Str) (wb : WindowBuffer)
    (h : WBSynced src wb) : WBSynced src (wb.next_line).2 := by
  rw [WindowBuffer.next_line]
  exact WBSynced_get_lines src wb _ _ h

theorem WBSynced_prev_line (src : List Str) (wb : WindowBuffer)
    (h : WBSynced src wb) : WBSynced src (wb.prev_line).2 := by
  rw [WindowBuffer.prev_line]
  by_cases he : wb.end_line ≤ wb.height
  · rw [if_pos he]
    exact h
  · rw [if_neg he]
    exact WBSynced_get_lines src wb _ _ h

theorem WBSynced_next_page (src : List Str) (wb : WindowBuffer)
    (h : WBSynced src wb) : WBSynced src (wb.next_page).2 :=
  WBSynced_get_lines src wb _ _ h

theorem WBSynced_prev_page (src : List Str) (wb : WindowBuffer)
    (h : WBSynced src wb) : WBSynced src (wb.prev_page).2 :=
  WBSynced_get_lines src wb _ _ h

theorem seek_one_lbS (src : List Str) (c q : Nat) :
    (lbS src c q).seek (some 1) none = lbS src c 0 := rfl

theorem WBSynced_set_predicate (src : List Str) (wb : WindowBuffer)
    (p : Option FilterPredicate) (h : WBSynced src wb) :
    WBSynced src (wb.set_predicate p) := by
  obtain ⟨c, q, hc, hq, hlb⟩ := h
  rw [WindowBuffer.set_predicate, WBSynced]
  simp only [ContextBuffer.into_line_buffer, hlb, seek_one_lbS]
  exact LBSynced_cb_new src p (lbS src c 0) ⟨c, 0, hc, by omega, rfl⟩

theorem fill_buffer_fields (wb : WindowBuffer) (limit : Nat) :
    ∃ new, (wb.fill_buffer limit).buffered_lines = wb.buffered_lines ++ new ∧
      (wb.fill_buffer limit).end_line = wb.end_line ∧
      (wb.fill_buffer limit).start_line = wb.start_line ∧
      (wb.fill_buffer limit).height = wb.height ∧
      (wb.fill_buffer limit).width = wb.width ∧
      (wb.fill_buffer limit).predicate = wb.predicate := by
  rw [WindowBuffer.fill_buffer]
  by_cases h : wb.buffered_lines.length < limit
  · rw [if_pos h]
    exact ⟨_, rfl, rfl, rfl, rfl, rfl, rfl⟩
  · rw [if_neg h]
    exact ⟨[], (List.append_nil _).symm, rfl, rfl, rfl, rfl, rfl⟩

theorem fill_buffer_ge (wb : WindowBuffer) (limit : Nat)
    (h : limit ≤ wb.buffered_lines.length) : wb.fill_buffer limit = wb := by
  rw [WindowBuffer.fill_buffer, if_neg (by omega)]

/-- Full characterization of `get_lines` fields for `start ≥ 1`. -/
theorem get_lines_spec (wb : WindowBuffer) (s n : Nat) (hs : 1 ≤ s) :
    (wb.get_lines s n).2.buffered_lines =
      (wb.fill_buffer (s - 1 + n)).buffered_lines ∧
    (wb.get_lines s n).2.end_line =
      min (s - 1 + n) (wb.fill_buffer (s - 1 + n)).buffered_lines.length ∧
    (wb.get_lines s n).2.start_line = s - 1 + 1 ∧
    (wb.get_lines s n).2.height = wb.height ∧
    (wb.get_lines s n).1.length =
      min (s - 1 + n) (wb.fill_buffer (s - 1 + n)).buffered_lines.length -
        (s - 1) := by
  rw [WindowBuffer.get_lines, if_neg (by omega)]
  simp only
  obtain ⟨new, hb, he, hst, hh, hw, hp⟩ := fill_buffer_fields wb (s - 1 + n)
  by_cases hle : s - 1 + n ≤ (wb.fill_buffer (s - 1 + n)).buffered_lines.length
  · rw [if_pos hle]
    refine ⟨trivial, by omega, trivial, hh, ?_⟩
    rw [List.length_take, List.length_drop]
    omega
  · rw [if_neg hle]
    refine ⟨trivial, by omega, trivial, hh, ?_⟩
    rw [List.length_take, List.length_drop]
    omega

theorem take_one_drop (l : List FilteredLine) (m : Nat) (h : m < l.length) :
    (l.drop m).take 1 = [l[m]] := by
  rw [List.drop_eq_getElem_cons h]
  rfl

theorem get_lines_no_fill (wb : WindowBuffer) (s n : Nat) (h1 : 1 ≤ s)
    (h2 : s - 1 + n ≤ wb.buffered_lines.length) :
    wb.get_lines s n =
      (((wb.buffered_lines).drop (s - 1)).take n,
        { wb with start_line := s - 1 + 1, end_line := s - 1 + n }) := by
  rw [WindowBuffer.get_lines, if_neg (by omega)]
  simp only
  rw [fill_buffer_ge wb _ h2, if_pos h2]
  rw [show s - 1 + n - (s - 1) = n from by omega]

/-- Full characterization of `prev_line` when the viewport is past the
first page: it fetches the cache entry at return-index
`end_line - height`, sets `start_line` there and steps `end_line` back by
one. -/
theorem prev_line_spec (wb : WindowBuffer) (hinv : WBBounded wb)
    (hgt : wb.height < wb.end_line) :
    wb.prev_line =
      (wb.buffered_lines[wb.end_line - wb.height - 1]?,
        { wb with start_line := wb.end_line - wb.height,
                  end_line := wb.end_line - 1 }) := by
  rw [WBBounded] at hinv
  rw [WindowBuffer.prev_line, if_neg (by omega)]
  simp only
  rw [if_pos (by omega : wb.end_line - wb.height > 0),
    if_pos (by omega : wb.end_line > 0)]
  rw [get_lines_no_fill wb (wb.end_line - wb.height) 1 (by omega) (by omega)]
  simp only
  have hidx : wb.end_line - wb.height - 1 < wb.buffered_lines.length := by
    omega
  rw [take_one_drop wb.buffered_lines (wb.end_line - wb.height - 1) hidx]
  rw [show ([wb.buffered_lines[wb.end_line - wb.height - 1]]).length = 1
    from rfl]
  rw [if_pos (by omega : (1:Nat) > 0)]
  rw [List.getElem?_eq_getElem hidx]
  rw [show wb.end_line - wb.height - 1 + 1 = wb.end_line - wb.height from
    by omega]
  rfl

/-- `prev_line` at or before the first page is a no-op returning `none`. -/
theorem prev_line_none (wb : WindowBuffer) (h : wb.end_line ≤ wb.height) :
    wb.prev_line = (none, wb) := by
  rw [WindowBuffer.prev_line, if_pos h]

theorem WBBounded_new (src : List Str) (p : Option FilterPredicate)
    (w h : Nat) : WBBounded (WindowBuffer.new src p w h) := by
  rw [WindowBuffer.new, WBBounded]
  simp

theorem WBBounded_get_lines (wb : WindowBuffer) (s n : Nat) (h : WBBounded wb) :
    WBBounded (wb.get_lines s n).2 := by
  by_cases hs : 1 ≤ s
  · obtain ⟨hb, he, hst, hh, hl⟩ := get_lines_spec wb s n hs
    rw [WBBounded, he, hb]
    omega
  · rw [WindowBuffer.get_lines, if_pos (by omega)]
    exact h

theorem WBBounded_next_page (wb : WindowBuffer) (h : WBBounded wb) :
    WBBounded (wb.next_page).2 :=
  WBBounded_get_lines wb _ _ h

theorem WBBounded_prev_page (wb : WindowBuffer) (h : WBBounded wb) :
    WBBounded (wb.prev_page).2 :=
  WBBounded_get_lines wb _ _ h

theorem WBBounded_next_line (wb : WindowBuffer) (h : WBBounded wb) :
    WBBounded (wb.next_line).2 := by
  rw [WindowBuffer.next_line]
  simp only
  obtain ⟨hb, he, hst, hh, hl⟩ := get_lines_spec wb (wb.end_line + 1) 1
    (by omega)
  obtain ⟨new, hfb, -, -, -, -, -⟩ := fill_buffer_fields wb (wb.end_line + 1 - 1 + 1)
  by_cases hpos : (wb.get_lines (wb.end_line + 1) 1).1.length > 0
  · rw [WBBounded]
    simp only
    rw [if_pos hpos, hb]
    rw [hl] at hpos
    omega
  · rw [WBBounded]
    simp only
    rw [if_neg hpos, hb, he]
    omega

theorem WBBounded_prev_line (wb : WindowBuffer) (h : WBBounded wb) :
    WBBounded (wb.prev_line).2 := by
  by_cases hgt : wb.height < wb.end_line
  · rw [prev_line_spec wb h hgt]
    rw [WBBounded] at h ⊢
    simp only
    omega
  · rw [prev_line_none wb (by omega)]
    exact h

theorem WBBounded_set_predicate (wb : WindowBuffer)
    (p : Option FilterPredicate) : WBBounded (wb.set_predicate p) := by
  rw [WindowBuffer.set_predicate, WBBounded]
  simp

theorem lineMatches_false_of_all (src : List Str) (fs : Str)
    (hall : ∀ s ∈ src, strContains s fs = false) (i : Nat) :
    lineMatches src fs i = false := by
  rw [lineMatches]
  by_cases h : i < 1
  · rw [if_pos h]
  · rw [if_neg h]
    cases hx : src[i-1]? with
    | none => rfl
    | some line => exact hall line (List.getElem?_mem hx)

theorem winHasMatch_false_of_all (src : List Str) (fs : Str) (r k : Nat)
    (hall : ∀ i, lineMatches src fs i = false) :
    winHasMatch src fs r k = false := by
  cases h : winHasMatch src fs r k
  · rfl
  · obtain ⟨i, -, -, -, -, hi⟩ := (winHasMatch_iff src fs r k).mp h
    rw [hall i] at hi
    simp at hi

theorem nextMatch_none_of_all (src : List Str) (fs : Str) (lo : Nat)
    (hall : ∀ i, lineMatches src fs i = false) :
    nextMatch src fs lo = none := by
  rw [nextMatch, List.find?_eq_none]
  intro j hj
  simp [hall j]

theorem gap_not_mem_ctxList (src : List Str) (a len : Nat) :
    FilteredLine.Gap ∉ ctxList src a len := by
  intro h
  obtain ⟨i, -, hi⟩ := List.mem_map.mp h
  exact FilteredLine.noConfusion hi

theorem count_gap_ctxList (src : List Str) (a len : Nat) :
    (ctxList src a len).count FilteredLine.Gap = 0 :=
  List.count_eq_zero.mpr (gap_not_mem_ctxList src a len)

theorem cbN_zero (src : List Str) (c : Nat) :
    (⟨none, [], lbS src c 0, .None⟩ : ContextBuffer) = cbN src 0 c := by
  rw [cbN, if_neg (by omega : ¬ (1 ≤ 0 ∧ 0 ≤ src.length)),
    show min 0 src.length = 0 from by omega]

/-- The first output of a freshly built classifier does not depend on how
much of the source the handed-over line buffer has already memoized. -/
theorem cb_next_fst_c_irrel (src : List Str) (p : Option FilterPredicate)
    (c c' : Nat) (hc : c ≤ src.length) (hc' : c' ≤ src.length) :
    ((ContextBuffer.new p (lbS src c 0)).next).1 =
      ((ContextBuffer.new p (lbS src c' 0)).next).1 := by
  cases p with
  | none =>
    rw [new_none, new_none, cbN_zero, cbN_zero,
      next_cbN src 0 c hc, next_cbN src 0 c' hc']
  | some fp =>
    obtain ⟨fs, r⟩ := fp
    rw [new_some_lbS src fs r c hc, new_some_lbS src fs r c' hc',
      next_A_none src fs r 0 _ (by omega), next_A_none src fs r 0 _ (by omega)]
    by_cases hwm : winHasMatch src fs r (0 + 1)
    · rw [if_pos hwm, if_pos hwm]
    · rw [if_neg hwm, if_neg hwm]
      cases nextMatch src fs (0 + 1 + r) <;> rfl

theorem takeSome_one (cb : ContextBuffer) :
    cb.takeSome 1 = (match cb.next with
      | (some x, cb') => ([x], cb')
      | (none, cb') => ([], cb')) := by
  rw [ContextBuffer.takeSome]
  cases hnx : cb.next with
  | mk o cb' =>
    cases o with
    | some x => rfl
    | none => rfl

/-- On a window with an empty cache and cursor 0, `next_line` returns
exactly the classifier's next output. -/
theorem next_line_fresh (cb : ContextBuffer) (p : Option FilterPredicate)
    (w h s : Nat) :
    ((⟨cb, [], p, w, h, s, 0⟩ : WindowBuffer).next_line).1 = (cb.next).1 := by
  cases hnx : cb.next with
  | mk o cb' =>
    cases o with
    | some x =>
      simp [WindowBuffer.next_line, WindowBuffer.get_lines,
        WindowBuffer.fill_buffer, takeSome_one, hnx]
    | none =>
      simp [WindowBuffer.next_line, WindowBuffer.get_lines,
        WindowBuffer.fill_buffer, takeSome_one, hnx]

/-!
## Claims
-/

/-- C1: for the 12-line source `["none","ctx","ctx","match","ctx","ctx",
"none","none","ctx","ctx","match","ctx"]` classified with the predicate
`{filter_string := "match", context_radius := 2}`, the first 11 outputs of
`next` are exactly `Gap, Context 2, Context 3, Match 4, Context 5,
Context 6, Gap, Context 9, Context 10, Match 11, Context 12`. -/
theorem claim_c1_scenario :
    (ContextBuffer.new (some ⟨str "match", 2⟩)
        (LineBuffer.new src12)).outSeq 11 =
      [some FilteredLine.Gap,
       some (FilteredLine.ContextLine (2, str "ctx")),
       some (FilteredLine.ContextLine (3, str "ctx")),
       some (FilteredLine.MatchLine (4, str "match")),
       some (FilteredLine.ContextLine (5, str "ctx")),
       some (FilteredLine.ContextLine (6, str "ctx")),
       some FilteredLine.Gap,
       some (FilteredLine.ContextLine (9, str "ctx")),
       some (FilteredLine.ContextLine (10, str "ctx")),
       some (FilteredLine.MatchLine (11, str "match")),
       some (FilteredLine.ContextLine (12, str "ctx"))] := by
  decide

/-- C2: when two consecutive matches `m < m'` are more than `2*r + 1`
lines apart, the classified stream decomposes around exactly one `Gap`
between the two context groups (the inter-group segment counts one `Gap`),
and globally no `Gap` is ever followed by another `Gap`: the item after
any `Gap` is a `Context` or `Match` line. -/
theorem claim_c2_gap_discipline (src : List Str) (fs : Str) (r m m' : Nat)
    (hfs : fs ≠ [])
    (hm : lineMatches src fs m = true) (hm' : lineMatches src fs m' = true)
    (hbet : ∀ x, m < x → x < m' → lineMatches src fs x = false)
    (hdist : 2 * r + 1 < m' - m) :
    (∃ P S, classifierOut src ⟨fs, r⟩ =
      P ++ FilteredLine.MatchLine (m, lineAt src m) ::
        (ctxList src (m + 1) r ++ FilteredLine.Gap ::
          (ctxList src (m' - r) r ++
            FilteredLine.MatchLine (m', lineAt src m') :: S))) ∧
    (ctxList src (m + 1) r ++ FilteredLine.Gap ::
        ctxList src (m' - r) r).count FilteredLine.Gap = 1 ∧
    (∀ i, (classifierOut src ⟨fs, r⟩)[i]? = some FilteredLine.Gap →
      ∃ nl, (classifierOut src ⟨fs, r⟩)[i+1]? =
          some (FilteredLine.ContextLine nl) ∨
        (classifierOut src ⟨fs, r⟩)[i+1]? =
          some (FilteredLine.MatchLine nl)) := by
  have hb := lineMatches_bounds src fs m hm
  refine ⟨?_, ?_, ?_⟩
  · obtain ⟨P, hP, -⟩ :=
      emitFrom_reaches src fs r src.length 0 m (by omega) (by omega) hm
    refine ⟨P, emitFrom src fs r m', ?_⟩
    rw [classifierOut_eq, hP]
    have hseg := emitFrom_seg src fs r m m' hm hm' hbet hdist r 0
      (by omega) (by omega)
    rw [show m + 0 = m from by omega, show r - 0 = r from by omega] at hseg
    rw [hseg]
  · simp [List.count_append, List.count_cons, count_gap_ctxList]
  · intro i hi
    rw [classifierOut_eq] at hi ⊢
    exact emitFrom_gap_good src fs r src.length 0 (by omega) i hi

theorem claim_c2_gap_discipline_witness :
    (str "match" ≠ [] ∧
     lineMatches src5 (str "match") 1 = true ∧
     lineMatches src5 (str "match") 5 = true ∧
     (∀ x, 1 < x → x < 5 → lineMatches src5 (str "match") x = false) ∧
     2 * 0 + 1 < 5 - 1) ∧
    ((∃ P S, classifierOut src5 ⟨str "match", 0⟩ =
      P ++ FilteredLine.MatchLine (1, lineAt src5 1) ::
        (ctxList src5 (1 + 1) 0 ++ FilteredLine.Gap ::
          (ctxList src5 (5 - 0) 0 ++
            FilteredLine.MatchLine (5, lineAt src5 5) :: S))) ∧
    (ctxList src5 (1 + 1) 0 ++ FilteredLine.Gap ::
        ctxList src5 (5 - 0) 0).count FilteredLine.Gap = 1 ∧
    (∀ i, (classifierOut src5 ⟨str "match", 0⟩)[i]? =
        some FilteredLine.Gap →
      ∃ nl, (classifierOut src5 ⟨str "match", 0⟩)[i+1]? =
          some (FilteredLine.ContextLine nl) ∨
        (classifierOut src5 ⟨str "match", 0⟩)[i+1]? =
          some (FilteredLine.MatchLine nl))) :=
  ⟨⟨by decide, by decide, by decide,
    fun x h1 h2 => by interval_cases x <;> decide, by decide⟩,
   claim_c2_gap_discipline src5 (str "match") 0 1 5 (by decide) (by decide)
     (by decide) (fun x h1 h2 => by interval_cases x <;> decide) (by decide)⟩

/-- C3: with `context_radius = 0` the classified stream, `Gap`s removed,
is exactly the matching source lines in order, each a `MatchLine` with its
original 1-based number. -/
theorem claim_c3_radius_zero (src : List Str) (fs : Str) (hfs : fs ≠ []) :
    (classifierOut src ⟨fs, 0⟩).filter
        (fun l => !(l == FilteredLine.Gap)) =
      ((numberFrom 1 src).filter (fun nl => strContains nl.2 fs)).map
        FilteredLine.MatchLine := by
  rw [classifierOut_eq, emitFrom_r0 src fs src.length 0 (by omega),
    matchedFrom, List.drop_zero]

theorem claim_c3_radius_zero_witness :
    str "match" ≠ [] ∧
    (classifierOut src12 ⟨str "match", 0⟩).filter
        (fun l => !(l == FilteredLine.Gap)) =
      ((numberFrom 1 src12).filter (fun nl =>
          strContains nl.2 (str "match"))).map FilteredLine.MatchLine :=
  ⟨by decide, claim_c3_radius_zero src12 (str "match") (by decide)⟩

/-- C4: with no predicate every source line is emitted verbatim in order
as an `UnfilteredLine` with its 1-based number — never a `Gap`, `Context`
or `Match` line — and every call past the source's end returns `none`. -/
theorem claim_c4_no_predicate (src : List Str) (N : Nat) :
    (ContextBuffer.new none (LineBuffer.new src)).outSeq N =
      ((numberFrom 1 src).map (fun nl =>
          some (FilteredLine.UnfilteredLine nl))).take N ++
        List.replicate (N - src.length) none := by
  rw [lbS_zero, new_none, cbN_zero, outSeq_cbN src N 0 0 (by omega),
    List.drop_zero, show src.length - 0 = src.length from by omega]

/-- C5 counterexample: the classifier core accepts an empty filter string
and runs in filtering mode — over the one-line source `["a"]` it emits the
line as a `MatchLine`, not as an `UnfilteredLine` pass-through. -/
theorem claim_c5_empty_filter_counterexample :
    ((ContextBuffer.new (some ⟨[], 0⟩)
        (LineBuffer.new [str "a"])).next).1 =
      some (FilteredLine.MatchLine (1, str "a")) ∧
    ((ContextBuffer.new (some ⟨[], 0⟩)
        (LineBuffer.new [str "a"])).next).1 ≠
      some (FilteredLine.UnfilteredLine (1, str "a")) := by
  decide

/-- C5 (amended): the classifier core does not reject an empty filter
string; since every line contains the empty string, classification under
`filter_string = ""` emits every source line as a `MatchLine` (no `Gap`s
and no `UnfilteredLine`s) — not the no-predicate pass-through behavior. -/
theorem claim_c5_empty_filter_amended (src : List Str) (r : Nat) :
    classifierOut src ⟨[], r⟩ =
      (numberFrom 1 src).map FilteredLine.MatchLine ∧
    FilteredLine.Gap ∉ classifierOut src ⟨[], r⟩ := by
  have h := emitFrom_empty_fs src r src.length 0 (by omega)
  constructor
  · rw [classifierOut_eq, h, List.drop_zero]
  · rw [classifierOut_eq, h]
    intro hmem
    obtain ⟨nl, -, hnl⟩ := List.mem_map.mp hmem
    exact FilteredLine.noConfusion hnl

/-- C6 counterexample: seeking to line 2 going `BACKWARD` on a fresh
buffer and then calling `next` pulls two lines from the source into the
memo — the backward step is not served purely from the memo. -/
theorem claim_c6_backward_counterexample :
    ((LineBuffer.new src3).seek (some 2)
        (some IterDirection.BACKWARD)).iter_direction =
      IterDirection.BACKWARD ∧
    ((LineBuffer.new src3).seek (some 2)
        (some IterDirection.BACKWARD)).cached_lines = [] ∧
    ((((LineBuffer.new src3).seek (some 2)
        (some IterDirection.BACKWARD)).next).2).cached_lines =
      [(1, str "one"), (2, str "two")] ∧
    ((((LineBuffer.new src3).seek (some 2)
        (some IterDirection.BACKWARD)).next).2).lines = [str "three"] ∧
    (((LineBuffer.new src3).seek (some 2)
        (some IterDirection.BACKWARD)).next).1 = some (2, str "two") := by
  decide

/-- C6 (amended): a backward `next` is served purely from the memo only
when the cursor is at most one position past the memo; under that bound
the source is untouched, the memo does not grow, and the call returns the
memoized line one position back, or `none` at the beginning. -/
theorem claim_c6_backward_amended (lb : LineBuffer)
    (hdir : lb.iter_direction = IterDirection.BACKWARD)
    (hlast : lb.last_iter_line ≤ lb.cached_lines.length + 1) :
    ((lb.next).2).lines = lb.lines ∧
    ((lb.next).2).cached_lines = lb.cached_lines ∧
    (lb.next).1 = (if 1 < lb.last_iter_line then
        lb.cached_lines[lb.last_iter_line - 2]? else none) := by
  rw [LineBuffer.next, hdir]
  simp only
  by_cases h1 : lb.last_iter_line > 1
  · rw [if_pos h1]
    simp only
    rw [LineBuffer.get, if_neg (by omega : ¬ lb.last_iter_line - 1 < 1)]
    simp only
    rw [if_neg (by omega : ¬ lb.last_iter_line - 1 > lb.cached_lines.length)]
    obtain ⟨v, hv⟩ :
        ∃ v, lb.cached_lines[lb.last_iter_line - 1 - 1]? = some v :=
      ⟨_, List.getElem?_eq_getElem (by omega)⟩
    rw [hv]
    refine ⟨rfl, rfl, ?_⟩
    rw [if_pos (by omega : 1 < lb.last_iter_line),
      show lb.last_iter_line - 2 = lb.last_iter_line - 1 - 1 from by omega,
      hv]
  · rw [if_neg h1]
    refine ⟨rfl, rfl, ?_⟩
    rw [if_neg (by omega : ¬ 1 < lb.last_iter_line)]

theorem claim_c6_backward_amended_witness :
    (lbB.iter_direction = IterDirection.BACKWARD ∧
     lbB.last_iter_line ≤ lbB.cached_lines.length + 1) ∧
    (((lbB.next).2).lines = lbB.lines ∧
     ((lbB.next).2).cached_lines = lbB.cached_lines ∧
     (lbB.next).1 = (if 1 < lbB.last_iter_line then
        lbB.cached_lines[lbB.last_iter_line - 2]? else none)) :=
  ⟨⟨rfl, by decide⟩, claim_c6_backward_amended lbB rfl (by decide)⟩

/-- C7: `set_predicate p` rebuilds the classifier over the same
synchronized line buffer rewound to before line 1 moving `FORWARD` (so the
next pull yields line 1), clears the cached lines and the viewport cursor,
stores `p`, and the next `next_line()` returns exactly the first output of
a fresh window over the same source with predicate `p` — never a line of
the old stream. -/
theorem claim_c7_set_predicate (src : List Str) (wb : WindowBuffer)
    (p : Option FilterPredicate) (c q : Nat) (hc : c ≤ src.length)
    (hiter : wb.context_buffer.iter = lbS src c q) :
    (wb.set_predicate p).context_buffer =
      ContextBuffer.new p (lbS src c 0) ∧
    (wb.set_predicate p).buffered_lines = [] ∧
    (wb.set_predicate p).end_line = 0 ∧
    (wb.set_predicate p).predicate = p ∧
    ((wb.set_predicate p).next_line).1 =
      ((WindowBuffer.new src p wb.width wb.height).next_line).1 := by
  have hset : wb.set_predicate p =
      ⟨ContextBuffer.new p (lbS src c 0), [], p, wb.width, wb.height,
        wb.start_line, 0⟩ := by
    rw [WindowBuffer.set_predicate]
    rw [ContextBuffer.into_line_buffer, hiter, seek_one_lbS]
  have h1 : ((⟨ContextBuffer.new p (lbS src c 0), [], p, wb.width,
      wb.height, wb.start_line, 0⟩ : WindowBuffer).next_line).1 =
      ((ContextBuffer.new p (lbS src c 0)).next).1 :=
    next_line_fresh _ _ _ _ _
  have h2 : ((⟨ContextBuffer.new p (lbS src 0 0), [], p, wb.width,
      wb.height, 0, 0⟩ : WindowBuffer).next_line).1 =
      ((ContextBuffer.new p (lbS src 0 0)).next).1 :=
    next_line_fresh _ _ _ _ _
  refine ⟨by rw [hset], by rw [hset], by rw [hset], by rw [hset], ?_⟩
  rw [hset, h1, cb_next_fst_c_irrel src p c 0 hc (by omega)]
  exact h2.symm

theorem claim_c7_set_predicate_witness :
    ((0 : Nat) ≤ src3.length ∧
     (WindowBuffer.new src3 none 80 3).context_buffer.iter = lbS src3 0 0) ∧
    (((WindowBuffer.new src3 none 80 3).set_predicate
        (some ⟨str "two", 1⟩)).context_buffer =
      ContextBuffer.new (some ⟨str "two", 1⟩) (lbS src3 0 0) ∧
    ((WindowBuffer.new src3 none 80 3).set_predicate
        (some ⟨str "two", 1⟩)).buffered_lines = [] ∧
    ((WindowBuffer.new src3 none 80 3).set_predicate
        (some ⟨str "two", 1⟩)).end_line = 0 ∧
    ((WindowBuffer.new src3 none 80 3).set_predicate
        (some ⟨str "two", 1⟩)).predicate = some ⟨str "two", 1⟩ ∧
    (((WindowBuffer.new src3 none 80 3).set_predicate
        (some ⟨str "two", 1⟩)).next_line).1 =
      ((WindowBuffer.new src3 (some ⟨str "two", 1⟩)
          (WindowBuffer.new src3 none 80 3).width
          (WindowBuffer.new src3 none 80 3).height).next_line).1) :=
  ⟨⟨by omega, rfl⟩,
   claim_c7_set_predicate src3 (WindowBuffer.new src3 none 80 3)
     (some ⟨str "two", 1⟩) 0 0 (by omega) rfl⟩

/-- C8: a height-3 window over the 10-line source with no predicate pages
forward through lines 1–3, 4–6, 7–9, then the single line 10, then the
empty page; paging back then yields lines 8–10 and 5–7; and whenever a
full page backward would underflow (`start_line ≤ height`), `prev_page`
clamps its start to line 1. -/
theorem claim_c8_paging :
    ((c8w 0).next_page).1 =
      [FilteredLine.UnfilteredLine (1, str "a"),
       FilteredLine.UnfilteredLine (2, str "b"),
       FilteredLine.UnfilteredLine (3, str "c")] ∧
    ((c8w 1).next_page).1 =
      [FilteredLine.UnfilteredLine (4, str "d"),
       FilteredLine.UnfilteredLine (5, str "e"),
       FilteredLine.UnfilteredLine (6, str "f")] ∧
    ((c8w 2).next_page).1 =
      [FilteredLine.UnfilteredLine (7, str "g"),
       FilteredLine.UnfilteredLine (8, str "h"),
       FilteredLine.UnfilteredLine (9, str "i")] ∧
    ((c8w 3).next_page).1 = [FilteredLine.UnfilteredLine (10, str "j")] ∧
    ((c8w 4).next_page).1 = [] ∧
    ((c8w 5).prev_page).1 =
      [FilteredLine.UnfilteredLine (8, str "h"),
       FilteredLine.UnfilteredLine (9, str "i"),
       FilteredLine.UnfilteredLine (10, str "j")] ∧
    ((((c8w 5).prev_page).2).prev_page).1 =
      [FilteredLine.UnfilteredLine (5, str "e"),
       FilteredLine.UnfilteredLine (6, str "f"),
       FilteredLine.UnfilteredLine (7, str "g")] ∧
    (∀ wb : WindowBuffer, wb.start_line ≤ wb.height →
      wb.prev_page = wb.get_lines 1 wb.height) := by
  refine ⟨by decide, by decide, by decide, by decide, by decide, by decide,
    by decide, ?_⟩
  intro wb hwb
  rw [WindowBuffer.prev_page, if_neg (by omega)]

theorem claim_c8_paging_witness :
    (c8w 1).start_line ≤ (c8w 1).height ∧
    (c8w 1).prev_page = (c8w 1).get_lines 1 (c8w 1).height :=
  ⟨by decide, claim_c8_paging.2.2.2.2.2.2.2 (c8w 1) (by decide)⟩

/-- C9 counterexample: a height-2 window over four lines after four
`next_line` calls has `start_line = 4` and a cached `UnfilteredLine
(3, "c")` immediately before it, yet `prev_line` returns `UnfilteredLine
(2, "b")` — the line at return index `end_line - height`, not the one
immediately before `start_line` — and jumps `start_line` from 4 to 2
rather than moving the viewport back by one. -/
theorem claim_c9_prev_line_counterexample :
    c9wb.height = 2 ∧ c9wb.start_line = 4 ∧ c9wb.end_line = 4 ∧
    c9wb.buffered_lines[c9wb.start_line - 2]? =
      some (FilteredLine.UnfilteredLine (3, str "c")) ∧
    (c9wb.prev_line).1 = some (FilteredLine.UnfilteredLine (2, str "b")) ∧
    (c9wb.prev_line).1 ≠ some (FilteredLine.UnfilteredLine (3, str "c")) ∧
    ((c9wb.prev_line).2).start_line = 2 ∧
    ((c9wb.prev_line).2).start_line ≠ c9wb.start_line - 1 := by
  decide

/-- C9 (amended): under the cache-bound invariant, `prev_line` returns
`none` exactly when the viewport is at the beginning (`end_line ≤
height`, a no-op); otherwise it returns the cached line at return index
`end_line - height` — the line `height` positions before the cursor, not
the one immediately before `start_line` — and sets `start_line :=
end_line - height` and `end_line := end_line - 1`. -/
theorem claim_c9_prev_line_amended (wb : WindowBuffer)
    (hinv : WBBounded wb) :
    ((wb.prev_line).1 = none ↔ wb.end_line ≤ wb.height) ∧
    (wb.end_line ≤ wb.height → wb.prev_line = (none, wb)) ∧
    (wb.height < wb.end_line →
      wb.prev_line =
        (wb.buffered_lines[wb.end_line - wb.height - 1]?,
          { wb with start_line := wb.end_line - wb.height,
                    end_line := wb.end_line - 1 })) := by
  refine ⟨⟨?_, ?_⟩, fun h => prev_line_none wb h,
    fun h => prev_line_spec wb hinv h⟩
  · intro hnone
    by_contra hgt
    have hspec := prev_line_spec wb hinv (by omega)
    have hfst : (wb.prev_line).1 =
        wb.buffered_lines[wb.end_line - wb.height - 1]? := by
      rw [hspec]
    rw [List.getElem?_eq_getElem
      (show wb.end_line - wb.height - 1 < wb.buffered_lines.length from by
        rw [WBBounded] at hinv
        omega)] at hfst
    rw [hnone] at hfst
    exact Option.noConfusion hfst
  · intro h
    rw [prev_line_none wb h]

theorem claim_c9_prev_line_amended_witness :
    WBBounded c9wb ∧
    (((c9wb.prev_line).1 = none ↔ c9wb.end_line ≤ c9wb.height) ∧
    (c9wb.end_line ≤ c9wb.height → c9wb.prev_line = (none, c9wb)) ∧
    (c9wb.height < c9wb.end_line →
      c9wb.prev_line =
        (c9wb.buffered_lines[c9wb.end_line - c9wb.height - 1]?,
          { c9wb with start_line := c9wb.end_line - c9wb.height,
                      end_line := c9wb.end_line - 1 }))) :=
  ⟨by unfold WBBounded; decide,
   claim_c9_prev_line_amended c9wb (by unfold WBBounded; decide)⟩

/-- C10: when a non-empty filter string occurs in no source line the
classifier's stream is completely empty: the very first `next` returns
`none` having internally consumed the whole source (the inner buffer's
pending lines are exhausted), and every output of every later call is
`none` as well. -/
theorem claim_c10_no_match (src : List Str) (fs : Str) (r : Nat)
    (hfs : fs ≠ [])
    (hall : ∀ s ∈ src, strContains s fs = false) :
    ((ContextBuffer.new (some ⟨fs, r⟩) (LineBuffer.new src)).next).1 =
      none ∧
    ((((ContextBuffer.new (some ⟨fs, r⟩)
        (LineBuffer.new src)).next).2).iter).lines = [] ∧
    (∀ N, (ContextBuffer.new (some ⟨fs, r⟩)
        (LineBuffer.new src)).outSeq N = List.replicate N none) := by
  have hlm := lineMatches_false_of_all src fs hall
  have hwm := winHasMatch_false_of_all src fs r (0 + 1) hlm
  have hnm := nextMatch_none_of_all src fs (0 + 1 + r) hlm
  have hnext : ((ContextBuffer.new (some ⟨fs, r⟩)
      (LineBuffer.new src)).next) = (none, cbB src fs r) := by
    rw [lbS_zero, new_some_lbS src fs r 0 (by omega),
      next_A_none src fs r 0 _ (by omega),
      if_neg (by simp [hwm]), hnm]
  refine ⟨by rw [hnext], by rw [hnext]; simp [cbB, lbS], ?_⟩
  intro N
  rw [lbS_zero, new_some_lbS src fs r 0 (by omega),
    (masterAux src fs r N).1 0 _ (by omega),
    emitFrom_dead src fs r 0 (by simp [hwm]) hnm, padNone_nil]

theorem claim_c10_no_match_witness :
    (str "zzz" ≠ [] ∧
     (∀ s ∈ src3, strContains s (str "zzz") = false)) ∧
    (((ContextBuffer.new (some ⟨str "zzz", 1⟩)
        (LineBuffer.new src3)).next).1 = none ∧
    ((((ContextBuffer.new (some ⟨str "zzz", 1⟩)
        (LineBuffer.new src3)).next).2).iter).lines = [] ∧
    (∀ N, (ContextBuffer.new (some ⟨str "zzz", 1⟩)
        (LineBuffer.new src3)).outSeq N = List.replicate N none)) :=
  ⟨⟨by decide, by decide⟩,
   claim_c10_no_match src3 (str "zzz") 1 (by decide) (by decide)⟩

end Filterless
